import Mathlib

/-!
Verification of the bit-numbering conversion logic and the mixed-endian
packing/unpacking engine of the cantools database utilities
(src/cantools/database/utils.py and
src/cantools/database/diagnostics/formats/cdd.py).

Python integers are modelled as Nat (all bit indices are non-negative) or
Int, Python rationals/floats as Rat, byte strings as lists of byte values,
and fallible code returns Except or Option.
-/

set_option maxHeartbeats 1600000

namespace Cantools

/-- Translation of linear_to_saw_tooth_bitnum (src/cantools/database/utils.py):
convert a linear (c-style/CDD) bit number to the saw-tooth (DBC) bit
numbering scheme. -/
def linear_to_saw_tooth_bitnum (linear_bit_num : Nat) : Nat :=
  let byte_num := linear_bit_num / 8
  let linear_bit_offset := linear_bit_num % 8
  let saw_bit_offset := 7 - linear_bit_offset
  byte_num * 8 + saw_bit_offset

/-- Translation of saw_tooth_from_linear_bitnum
(src/cantools/database/diagnostics/formats/cdd.py), a verbatim duplicate of
linear_to_saw_tooth_bitnum. -/
def saw_tooth_from_linear_bitnum (linear_bit_num : Nat) : Nat :=
  let byte_num := linear_bit_num / 8
  let linear_bit_offset := linear_bit_num % 8
  let saw_bit_offset := 7 - linear_bit_offset
  byte_num * 8 + saw_bit_offset

/-- Translation of cdd_to_dbc_start_bit (src/cantools/database/utils.py).
For an unrecognized byte order the Python function executes
raise Error("Unknown byte order: %s" % byte_order), but utils.py neither
imports nor defines Error, so evaluating that statement itself raises
NameError whose message is the constant "name \x27Error\x27 is not defined";
the exception actually escaping is modelled by Except carrying that
tag-independent message. -/
def cdd_to_dbc_start_bit (byte_order : String) (linear_first_bit : Nat)
    (bit_len : Nat) : Except String Nat :=
  if byte_order = "big_endian" then
    Except.ok (linear_to_saw_tooth_bitnum linear_first_bit)
  else if byte_order = "little_endian" then
    Except.ok (linear_to_saw_tooth_bitnum (linear_first_bit + bit_len - 1))
  else
    Except.error "name \x27Error\x27 is not defined"

/-- Translation of saw_tooth_start_from_linear_bitnum
(src/cantools/database/diagnostics/formats/cdd.py), a textual duplicate of
cdd_to_dbc_start_bit up to its local copy of the linear to saw-tooth
conversion; here cdd.py does import Error (from ...errors), so the raised
exception really carries the formatted message naming the tag. -/
def saw_tooth_start_from_linear_bitnum (byte_order : String)
    (linear_first_bit : Nat) (bit_len : Nat) : Except String Nat :=
  if byte_order = "big_endian" then
    Except.ok (saw_tooth_from_linear_bitnum linear_first_bit)
  else if byte_order = "little_endian" then
    Except.ok (saw_tooth_from_linear_bitnum (linear_first_bit + bit_len - 1))
  else
    Except.error ("Unknown byte order: " ++ byte_order)

/-- Translation of the byte-order decoding step of _load_data_types
(src/cantools/database/diagnostics/formats/cdd.py): the bo code 21 means
big endian, 12 means little endian, anything else raises Error with the
unformatted message and the offending code as exception arguments. -/
def decode_byte_order (bo_code : String) : Except (String × String) String :=
  if bo_code = "21" then Except.ok "big_endian"
  else if bo_code = "12" then Except.ok "little_endian"
  else Except.error ("Unsupported byte order code \x27%s\x27.", bo_code)

/-- Round a rational to the nearest integer with ties going to the even
integer; this is ROUND_HALF_EVEN, the rounding mode of the default Python
decimal context used by Decimal.to_integral. -/
def roundHalfEven (q : ℚ) : ℤ :=
  let f := ⌊q⌋
  let r := q - f
  if r < 1 / 2 then f
  else if 1 / 2 < r then f + 1
  else if f % 2 = 0 then f else f + 1

/-- Floor of the base-10 logarithm of the absolute value of a nonzero
rational: the unique e with 10 ^ e ≤ |q| < 10 ^ (e + 1). -/
def qLogFloor (q : ℚ) : ℤ :=
  let n := q.num.natAbs
  let d := q.den
  if d ≤ n then (Nat.log 10 (n / d) : ℤ)
  else
    let k := Nat.log 10 (d / n)
    if d = n * 10 ^ k then -(k : ℤ) else -(k : ℤ) - 1

/-- Model of the Python decimal module (external library) under the default
context: a Decimal value is modelled by its exact rational value, and each
arithmetic operation rounds its exact rational result to 28 significant
decimal digits with half-to-even rounding. For q in [10^e, 10^(e+1)) the
28-digit grid has spacing 10^(e-27). -/
def decRound28 (q : ℚ) : ℚ :=
  if q = 0 then 0
  else
    let g : ℚ := (10 : ℚ) ^ (qLogFloor q - 27)
    (if q < 0 then -1 else 1) * (roundHalfEven (|q| / g) : ℚ) * g

/-- Decimal subtraction: correctly rounded exact difference. -/
def decSub (a b : ℚ) : ℚ := decRound28 (a - b)

/-- Decimal division: correctly rounded exact quotient. -/
def decDiv (a b : ℚ) : ℚ := decRound28 (a / b)

/-- Decimal to_integral under the default context: round to the nearest
integer, ties to even, with no precision limit. -/
def decToIntegral (a : ℚ) : ℤ := roundHalfEven a

/-- The format character that get_format_string_type
(src/cantools/database/utils.py) assigns to a field: f for float, s for
signed, u for unsigned. -/
inductive FmtType
  | f
  | s
  | u
deriving DecidableEq

/-- Field descriptor as consumed by the utilities of
src/cantools/database/utils.py: the attributes of the Data value type that
the code under verification reads. Python numbers (floats and ints) are
modelled by their exact rational values. -/
structure Data where
  name : String
  start : Nat
  length : Nat
  byte_order : String
  is_float : Bool := false
  is_signed : Bool := false
  scale : ℚ := 1
  offset : ℚ := 0
  choices : Option (List (ℤ × String)) := none
deriving DecidableEq

/-- A Python value supplied to encode or produced by decode: either a number
or a symbolic choice name. -/
inductive Value
  | num (q : ℚ)
  | sym (s : String)
deriving DecidableEq

/-- Modelled from the spec: Data.choice_string_to_number lives in the Data
class, which is not under src/. Per the spec it resolves a symbolic value
via the choices mapping to its raw integer key and fails with UnknownChoice
when absent. -/
def choice_string_to_number (choices : Option (List (ℤ × String)))
    (value : String) : Option ℤ :=
  match choices with
  | none => none
  | some cs => (cs.find? (fun p => p.2 = value)).map (fun p => p.1)

/-- Translation of _encode_field (src/cantools/database/utils.py). A string
value is resolved through the choices mapping (None on failure, modelling
the UnknownChoice exception); otherwise with scaling the float path uses
plain arithmetic and the integer path uses Decimal arithmetic and
to_integral. -/
def _encode_field (field : Data) (data : String → Value) (scaling : Bool) :
    Option ℚ :=
  match data field.name with
  | Value.sym v =>
    (choice_string_to_number field.choices v).map (fun z => ((z : ℤ) : ℚ))
  | Value.num value =>
    if scaling then
      if field.is_float then some ((value - field.offset) / field.scale)
      else some ((decToIntegral (decDiv (decSub value field.offset) field.scale) : ℚ))
    else some value

/-- Translation of _decode_field (src/cantools/database/utils.py): with
decode_choices a successful choices lookup returns the symbolic name, and
KeyError (no matching key) or TypeError (choices is None) falls through to
the scaled or raw value. -/
def _decode_field (field : Data) (value : ℤ) (decode_choices : Bool)
    (scaling : Bool) : Value :=
  let fallback : Value :=
    if scaling then Value.num (field.scale * value + field.offset)
    else Value.num (value : ℚ)
  if decode_choices then
    match field.choices with
    | some cs =>
      match cs.lookup value with
      | some name => Value.sym name
      | none => fallback
    | none => fallback
  else fallback

theorem roundHalfEven_intCast (z : ℤ) : roundHalfEven (z : ℚ) = z := by
  simp only [roundHalfEven, Int.floor_intCast, sub_self]
  norm_num

theorem roundHalfEven_eq_of_lt_half (q : ℚ) (z : ℤ) (h1 : (z : ℚ) ≤ q)
    (h2 : q < z + 1 / 2) : roundHalfEven q = z := by
  have hf : ⌊q⌋ = z := Int.floor_eq_iff.mpr ⟨h1, by linarith⟩
  simp only [roundHalfEven, hf]
  rw [if_pos (by linarith)]

theorem qLogFloor_intCast (z : ℤ) (hz : z ≠ 0) :
    qLogFloor (z : ℚ) = (Nat.log 10 z.natAbs : ℤ) := by
  have h1 : (z : ℚ).num = z := Rat.num_intCast z
  have h2 : (z : ℚ).den = 1 := Rat.den_intCast z
  have hn : 1 ≤ z.natAbs := Int.natAbs_pos.mpr hz
  simp [qLogFloor, h1, h2, hn]

theorem decRound28_pos_eval (q : ℚ) (e m : ℤ) (hq : 0 < q)
    (he : qLogFloor q = e)
    (hm : roundHalfEven (q / 10 ^ (e - 27)) = m) :
    decRound28 q = (m : ℚ) * 10 ^ (e - 27) := by
  simp only [decRound28, if_neg (ne_of_gt hq), if_neg (not_lt.mpr hq.le), he,
    abs_of_pos hq, hm, one_mul]

theorem decRound28_intCast (z : ℤ) (hz : 0 < z) (h : z < 10 ^ 28) :
    decRound28 (z : ℚ) = z := by
  have hz' : z ≠ 0 := ne_of_gt hz
  have he : qLogFloor (z : ℚ) = (Nat.log 10 z.natAbs : ℤ) := qLogFloor_intCast z hz'
  set e : ℕ := Nat.log 10 z.natAbs with hedef
  have hna : z.natAbs < 10 ^ 28 := by omega
  have hlt : e < 28 := Nat.log_lt_of_lt_pow (by omega) hna
  have hg : ((10 : ℚ) ^ ((e : ℤ) - 27))⁻¹ = (10 : ℚ) ^ (((27 - e : ℕ) : ℤ)) := by
    rw [← zpow_neg]
    congr 1
    omega
  have hpow : (10 : ℚ) ^ (((27 - e : ℕ) : ℤ)) = ((10 ^ (27 - e) : ℕ) : ℚ) := by
    rw [zpow_natCast]
    push_cast
    ring
  have key : (z : ℚ) / (10 : ℚ) ^ ((e : ℤ) - 27) = ((z * 10 ^ (27 - e) : ℤ) : ℚ) := by
    rw [div_eq_mul_inv, hg, hpow]
    push_cast
    ring
  have hm : roundHalfEven ((z : ℚ) / 10 ^ ((e : ℤ) - 27)) = z * 10 ^ (27 - e) := by
    rw [key, roundHalfEven_intCast]
  have hres := decRound28_pos_eval (z : ℚ) (e : ℤ) (z * 10 ^ (27 - e))
    (by exact_mod_cast hz) he hm
  rw [hres]
  push_cast
  rw [mul_assoc, ← zpow_natCast (10 : ℚ) (27 - e), ← zpow_add₀ (by norm_num : (10 : ℚ) ≠ 0)]
  have hz0 : ((27 - e : ℕ) : ℤ) + ((e : ℤ) - 27) = 0 := by omega
  rw [hz0, zpow_zero, mul_one]

theorem log10_pow28 : Nat.log 10 10000000000000000000000000000 = 28 :=
  Nat.log_eq_of_pow_le_of_lt_pow (by norm_num) (by norm_num)

theorem log10_pow28_add_one : Nat.log 10 10000000000000000000000000001 = 28 :=
  Nat.log_eq_of_pow_le_of_lt_pow (by norm_num) (by norm_num)

theorem decRound28_pow28 : decRound28 ((10 ^ 28 : ℤ) : ℚ) = ((10 ^ 28 : ℤ) : ℚ) := by
  have he : qLogFloor ((10 ^ 28 : ℤ) : ℚ) = 28 := by
    rw [qLogFloor_intCast _ (by norm_num)]
    norm_num [log10_pow28]
  have hdiv : ((10 ^ 28 : ℤ) : ℚ) / 10 ^ ((28 : ℤ) - 27) = ((10 ^ 27 : ℤ) : ℚ) := by
    push_cast
    norm_num
  have hm : roundHalfEven (((10 ^ 28 : ℤ) : ℚ) / 10 ^ ((28 : ℤ) - 27)) = 10 ^ 27 := by
    rw [hdiv, roundHalfEven_intCast]
  have hres := decRound28_pos_eval _ 28 (10 ^ 27) (by positivity) he hm
  rw [hres]
  push_cast
  norm_num

theorem decRound28_pow28_add_one :
    decRound28 ((10 ^ 28 + 1 : ℤ) : ℚ) = ((10 ^ 28 : ℤ) : ℚ) := by
  have he : qLogFloor ((10 ^ 28 + 1 : ℤ) : ℚ) = 28 := by
    rw [qLogFloor_intCast _ (by norm_num)]
    norm_num [log10_pow28_add_one]
  have hm : roundHalfEven (((10 ^ 28 + 1 : ℤ) : ℚ) / 10 ^ ((28 : ℤ) - 27)) = 10 ^ 27 := by
    apply roundHalfEven_eq_of_lt_half
    · push_cast
      rw [le_div_iff₀ (by norm_num)]
      norm_num
    · push_cast
      rw [div_lt_iff₀ (by norm_num)]
      norm_num
  have hres := decRound28_pos_eval _ 28 (10 ^ 27) (by positivity) he hm
  rw [hres]
  push_cast
  norm_num

/-- C1: for every non-negative linear bit index n, linear_to_saw_tooth_bitnum
stays within the same byte (n / 8 is preserved) and is an involution
(applying it twice returns n). -/
theorem linear_to_saw_tooth_bitnum_same_byte_involutive (n : Nat) :
    n / 8 = linear_to_saw_tooth_bitnum n / 8 ∧
    linear_to_saw_tooth_bitnum (linear_to_saw_tooth_bitnum n) = n := by
  simp only [linear_to_saw_tooth_bitnum]
  omega

/-- C2: the start-bit conversion applies the saw-tooth conversion to
linear_start for big-endian fields and to linear_start + width - 1 for
little-endian fields, the cdd.py copy agrees with it, and it produces the
twelve concrete values listed in the spec. -/
theorem cdd_to_dbc_start_bit_spec :
    (∀ (s w : Nat), 1 ≤ w →
      cdd_to_dbc_start_bit "big_endian" s w =
        Except.ok (linear_to_saw_tooth_bitnum s) ∧
      cdd_to_dbc_start_bit "little_endian" s w =
        Except.ok (linear_to_saw_tooth_bitnum (s + w - 1)) ∧
      saw_tooth_start_from_linear_bitnum "big_endian" s w =
        cdd_to_dbc_start_bit "big_endian" s w ∧
      saw_tooth_start_from_linear_bitnum "little_endian" s w =
        cdd_to_dbc_start_bit "little_endian" s w) ∧
    cdd_to_dbc_start_bit "big_endian" 0 8 = Except.ok 7 ∧
    cdd_to_dbc_start_bit "little_endian" 0 8 = Except.ok 0 ∧
    cdd_to_dbc_start_bit "big_endian" 0 4 = Except.ok 7 ∧
    cdd_to_dbc_start_bit "little_endian" 0 4 = Except.ok 4 ∧
    cdd_to_dbc_start_bit "big_endian" 4 4 = Except.ok 3 ∧
    cdd_to_dbc_start_bit "little_endian" 4 4 = Except.ok 0 ∧
    cdd_to_dbc_start_bit "big_endian" 0 16 = Except.ok 7 ∧
    cdd_to_dbc_start_bit "little_endian" 0 16 = Except.ok 8 ∧
    cdd_to_dbc_start_bit "big_endian" 0 32 = Except.ok 7 ∧
    cdd_to_dbc_start_bit "little_endian" 0 32 = Except.ok 24 ∧
    cdd_to_dbc_start_bit "big_endian" 32 16 = Except.ok 39 ∧
    cdd_to_dbc_start_bit "little_endian" 32 16 = Except.ok 40 := by
  refine ⟨fun s w _ => ⟨rfl, rfl, rfl, rfl⟩, ?_⟩
  repeat constructor

/-- C2 witness: the general part of cdd_to_dbc_start_bit_spec applied at the
concrete input start 5, width 4. -/
theorem cdd_to_dbc_start_bit_spec_witness :
    cdd_to_dbc_start_bit "big_endian" 5 4 =
      Except.ok (linear_to_saw_tooth_bitnum 5) :=
  (cdd_to_dbc_start_bit_spec.1 5 4 (by decide)).1

/-- C3: the claim fails against the source: utils.py neither imports nor
defines Error, so for an unrecognized tag the core conversion function
cdd_to_dbc_start_bit raises NameError with the constant message
name \x27Error\x27 is not defined, the same for every unrecognized tag and
independent of it, hence not naming the offending tag; only the cdd.py
duplicate and the load-time byte-order code decoder, where Error is
imported, raise errors that carry the offending tag. -/
theorem unsupported_byte_order_code_bug :
    (∀ (tag : String) (s w : Nat),
      tag ≠ "big_endian" → tag ≠ "little_endian" →
      cdd_to_dbc_start_bit tag s w =
        Except.error "name \x27Error\x27 is not defined" ∧
      saw_tooth_start_from_linear_bitnum tag s w =
        Except.error ("Unknown byte order: " ++ tag)) ∧
    (∀ (tag1 tag2 : String) (s1 w1 s2 w2 : Nat),
      tag1 ≠ "big_endian" → tag1 ≠ "little_endian" →
      tag2 ≠ "big_endian" → tag2 ≠ "little_endian" →
      cdd_to_dbc_start_bit tag1 s1 w1 = cdd_to_dbc_start_bit tag2 s2 w2) ∧
    (∀ bo_code : String, bo_code ≠ "21" → bo_code ≠ "12" →
      decode_byte_order bo_code =
        Except.error ("Unsupported byte order code \x27%s\x27.", bo_code)) := by
  refine ⟨?_, ?_, ?_⟩
  · intro tag s w h1 h2
    constructor
    · simp [cdd_to_dbc_start_bit, h1, h2]
    · simp [saw_tooth_start_from_linear_bitnum, h1, h2]
  · intro tag1 tag2 s1 w1 s2 w2 h1 h2 h3 h4
    simp [cdd_to_dbc_start_bit, h1, h2, h3, h4]
  · intro bo_code h1 h2
    simp [decode_byte_order, h1, h2]

/-- C3 witness: unsupported_byte_order_code_bug applied at the concrete tags
middle_endian and mixed_endian and the concrete code 33: the utils.py
failure is the same constant NameError message for both tags, while the
cdd.py duplicate and the load-time decoder name the offending tag. -/
theorem unsupported_byte_order_code_bug_witness :
    cdd_to_dbc_start_bit "middle_endian" 0 8 =
      Except.error "name \x27Error\x27 is not defined" ∧
    cdd_to_dbc_start_bit "middle_endian" 0 8 =
      cdd_to_dbc_start_bit "mixed_endian" 3 4 ∧
    saw_tooth_start_from_linear_bitnum "middle_endian" 0 8 =
      Except.error ("Unknown byte order: " ++ "middle_endian") ∧
    decode_byte_order "33" =
      Except.error ("Unsupported byte order code \x27%s\x27.", "33") :=
  ⟨(unsupported_byte_order_code_bug.1 "middle_endian" 0 8 (by decide)
      (by decide)).1,
   unsupported_byte_order_code_bug.2.1 "middle_endian" "mixed_endian" 0 8 3 4
     (by decide) (by decide) (by decide) (by decide),
   (unsupported_byte_order_code_bug.1 "middle_endian" 0 8 (by decide)
      (by decide)).2,
   unsupported_byte_order_code_bug.2.2 "33" (by decide) (by decide)⟩

/-- Translation of start_bit (src/cantools/database/utils.py): the
frame-relative MSB-first position of a field; big-endian starts are mapped
back from saw-tooth space, other starts are used as is. -/
def start_bit (data : Data) : Nat :=
  if data.byte_order = "big_endian" then
    8 * (data.start / 8) + (7 - data.start % 8)
  else
    data.start

/-- One piece of the bitstruct format string assembled by
create_encode_decode_formats (src/cantools/database/utils.py): a padding
item p<length> or a data item u<length>, s<length> or f<length> bound to a
field name. -/
inductive Item
  | padding (length : Nat)
  | field (length : Nat) (typ : FmtType) (name : String)
deriving DecidableEq

/-- Bit width of a layout item. -/
def Item.length : Item → Nat
  | Item.padding l => l
  | Item.field l _ _ => l

/-- Translation of get_format_string_type (src/cantools/database/utils.py). -/
def get_format_string_type (data : Data) : FmtType :=
  if data.is_float then FmtType.f
  else if data.is_signed then FmtType.s
  else FmtType.u

/-- Translation of the loop of create_big (src/cantools/database/utils.py):
the remaining datas and the running cursor start; format_length is the
frame bit width. Fields tagged little_endian are skipped, a padding item is
inserted when start_bit exceeds the cursor, and a trailing padding item
fills the frame. -/
def create_big_items (format_length : Nat) : List Data → Nat → List Item
  | [], start =>
    if start < format_length then [Item.padding (format_length - start)] else []
  | data :: rest, start =>
    if data.byte_order = "little_endian" then
      create_big_items format_length rest start
    else
      (if start < start_bit data then [Item.padding (start_bit data - start)]
       else []) ++
        (Item.field data.length (get_format_string_type data) data.name ::
          create_big_items format_length rest (start_bit data + data.length))

/-- Translation of the loop of create_little
(src/cantools/database/utils.py), which iterates over the reversed datas
with a downward cursor end; fields tagged big_endian are skipped and a
final padding item of width end is appended when positive. -/
def create_little_items_rev : List Data → Nat → List Item
  | [], e => if 0 < e then [Item.padding e] else []
  | data :: rest, e =>
    if data.byte_order = "big_endian" then
      create_little_items_rev rest e
    else
      (if data.start + data.length < e then
         [Item.padding (e - (data.start + data.length))]
       else []) ++
        (Item.field data.length (get_format_string_type data) data.name ::
          create_little_items_rev rest data.start)

/-- create_little iterates over datas with [::-1]. -/
def create_little_items (datas : List Data) (format_length : Nat) : List Item :=
  create_little_items_rev datas.reverse format_length

/-- Total bit width of a layout. -/
def itemsLength (items : List Item) : Nat :=
  (items.map Item.length).sum

/-- Shared accumulator shape of the padding_mask computation and of
bitstruct packing in create_encode_decode_formats: the per-item strings are
concatenated and read as one big base-2 numeral, so each item shifts the
accumulator left by its length and adds its own chunk. -/
def foldBits (f : Item → Nat) (items : List Item) : Nat :=
  items.foldl (fun acc it => acc * 2 ^ it.length + f it) 0

/-- Chunk contributed by an item to the padding mask string built by
padding_item and data_item (src/cantools/database/utils.py): all ones for
padding, all zeros for data. -/
def maskChunk : Item → Nat
  | Item.padding l => 2 ^ l - 1
  | Item.field _ _ _ => 0

/-- Translation of padding_mask (src/cantools/database/utils.py): the
concatenated per-item mask strings read as a binary numeral, 0 for the
empty string (the caught ValueError). -/
def items_padding_mask (items : List Item) : Nat := foldBits maskChunk items

/-- Reverse the byte order of an n-byte value: byte k counted from the
little end moves to byte k counted from the big end. This is the effect of
the bytes[::-1] plus hexlify reinterpretation idiom of the Python code. -/
def byteRev : Nat → Nat → Nat
  | 0, _ => 0
  | n + 1, v => v % 256 * 2 ^ (8 * n) + byteRev n (v / 256)

/-- Translation of the little mask post-processing in create_little
(src/cantools/database/utils.py): when format_length is positive the mask
value is packed as an unsigned field of the layout bit length L (bitstruct
left-aligns the value in ceil(L/8) bytes, zero-filling the low bits), the
byte string is reversed and read back as an integer. -/
def little_mask_post (value L format_length : Nat) : Nat :=
  if 0 < format_length then
    byteRev ((L + 7) / 8) (value * 2 ^ (8 * ((L + 7) / 8) - L))
  else value

/-- Names of the data items of a layout, in order, as built by names
(src/cantools/database/utils.py). -/
def itemNames (items : List Item) : List String :=
  items.filterMap (fun it => match it with
    | Item.padding _ => none
    | Item.field _ _ n => some n)

/-- Translation of create_big (src/cantools/database/utils.py): the layout
(standing for the fmt string together with the compiled names), its padding
mask, and the names. -/
def create_big (datas : List Data) (format_length : Nat) :
    List Item × Nat × List String :=
  let items := create_big_items format_length datas 0
  (items, items_padding_mask items, itemNames items)

/-- Translation of create_little (src/cantools/database/utils.py). -/
def create_little (datas : List Data) (format_length : Nat) :
    List Item × Nat × List String :=
  let items := create_little_items datas format_length
  (items, little_mask_post (items_padding_mask items) (itemsLength items)
    format_length, itemNames items)

/-- The Formats namedtuple (src/cantools/database/utils.py): compiled big
and little layouts and the combined padding mask. -/
structure Formats where
  big_endian : List Item
  little_endian : List Item
  padding_mask : Nat
deriving DecidableEq

/-- Translation of create_encode_decode_formats
(src/cantools/database/utils.py): both programs plus the bitwise AND of
their padding masks. -/
def create_encode_decode_formats (datas : List Data) (number_of_bytes : Nat) :
    Formats :=
  let format_length := 8 * number_of_bytes
  let big := create_big datas format_length
  let little := create_little datas format_length
  { big_endian := big.1, little_endian := little.1,
    padding_mask := big.2.1 &&& little.2.1 }

/-- The big-endian cursor algorithm exactly as the spec phrases it: walk the
big-endian fields in declaration order; for each compute the frame-relative
MSB-first position p = 8 * (start / 8) + (7 - start % 8); if p exceeds the
cursor insert a padding item of width p - cursor; insert a data item of the
field width and kind; advance the cursor to p + width; after the loop pad
up to the frame bit width W. -/
def spec_big_program_loop (W : Nat) : List Data → Nat → List Item
  | [], cursor => if cursor < W then [Item.padding (W - cursor)] else []
  | d :: rest, cursor =>
    let p := 8 * (d.start / 8) + (7 - d.start % 8)
    (if cursor < p then [Item.padding (p - cursor)] else []) ++
      (Item.field d.length (get_format_string_type d) d.name ::
        spec_big_program_loop W rest (p + d.length))

/-- The spec phrasing of the big-endian program over the big-endian fields
of the frame in declaration order, cursor starting at 0. -/
def spec_big_program (datas : List Data) (W : Nat) : List Item :=
  spec_big_program_loop W (datas.filter (fun d => d.byte_order = "big_endian")) 0

/-- The little-endian cursor algorithm exactly as the spec phrases it: walk
the little-endian fields in reverse declaration order with a cursor
starting at W and moving downward; the gap is cursor - (start + width);
insert the data item and set the cursor to start; finally append a padding
item of the remaining cursor when positive. -/
def spec_little_program_loop : List Data → Nat → List Item
  | [], cursor => if 0 < cursor then [Item.padding cursor] else []
  | d :: rest, cursor =>
    (if d.start + d.length < cursor then
       [Item.padding (cursor - (d.start + d.length))]
     else []) ++
      (Item.field d.length (get_format_string_type d) d.name ::
        spec_little_program_loop rest d.start)

/-- The spec phrasing of the little-endian program: reverse declaration
order over the little-endian fields only, cursor starting at W. -/
def spec_little_program (datas : List Data) (W : Nat) : List Item :=
  spec_little_program_loop
    ((datas.filter (fun d => d.byte_order = "little_endian")).reverse) W

/-- Is an item a data item? -/
def Item.isData : Item → Bool
  | Item.padding _ => false
  | Item.field _ _ _ => true

/-- Does local bit position p of a layout fall inside a data item? -/
def dataAt : List Item → Nat → Bool
  | [], _ => false
  | it :: rest, p =>
    if p < it.length then it.isData else dataAt rest (p - it.length)

/-- Bit at local position p (MSB first) of the value assembled by foldBits:
position p falls inside some item and selects that chunk bit. -/
def chunkBitAt (f : Item → Nat) : List Item → Nat → Bool
  | [], _ => false
  | it :: rest, p =>
    if p < it.length then (f it).testBit (it.length - 1 - p)
    else chunkBitAt f rest (p - it.length)

theorem itemsLength_cons (it : Item) (rest : List Item) :
    itemsLength (it :: rest) = it.length + itemsLength rest := by
  simp [itemsLength]

theorem foldBits_foldl (f : Item → Nat) (items : List Item) (acc : Nat) :
    items.foldl (fun a it => a * 2 ^ it.length + f it) acc =
      acc * 2 ^ itemsLength items + foldBits f items := by
  induction items generalizing acc with
  | nil => simp [foldBits, itemsLength]
  | cons it rest ih =>
    show List.foldl _ (acc * 2 ^ it.length + f it) rest = _
    rw [ih]
    have h2 : foldBits f (it :: rest) =
        f it * 2 ^ itemsLength rest + foldBits f rest := by
      show List.foldl _ (0 * 2 ^ it.length + f it) rest = _
      rw [ih]
      ring
    rw [h2, itemsLength_cons, pow_add]
    ring

theorem foldBits_cons (f : Item → Nat) (it : Item) (rest : List Item) :
    foldBits f (it :: rest) = f it * 2 ^ itemsLength rest + foldBits f rest := by
  show List.foldl _ (0 * 2 ^ it.length + f it) rest = _
  rw [foldBits_foldl]
  ring

theorem foldBits_lt (f : Item → Nat) (items : List Item)
    (hf : ∀ it ∈ items, f it < 2 ^ it.length) :
    foldBits f items < 2 ^ itemsLength items := by
  induction items with
  | nil => simp [foldBits, itemsLength]
  | cons it rest ih =>
    rw [foldBits_cons, itemsLength_cons, pow_add]
    have h1 : f it < 2 ^ it.length := hf it (List.mem_cons_self it rest)
    have h2 : foldBits f rest < 2 ^ itemsLength rest :=
      ih (fun x hx => hf x (List.mem_cons_of_mem it hx))
    calc f it * 2 ^ itemsLength rest + foldBits f rest
        < (f it + 1) * 2 ^ itemsLength rest := by
          rw [add_mul, one_mul]
          omega
      _ ≤ 2 ^ it.length * 2 ^ itemsLength rest := by
          apply Nat.mul_le_mul_right
          omega

theorem testBit_div_pow (v m j : Nat) :
    (v / 2 ^ m).testBit j = v.testBit (m + j) := by
  simp only [Nat.testBit_to_div_mod, Nat.div_div_eq_div_mul, ← pow_add]

theorem foldBits_testBit (f : Item → Nat) (items : List Item)
    (hf : ∀ it ∈ items, f it < 2 ^ it.length) (p : Nat)
    (hp : p < itemsLength items) :
    (foldBits f items).testBit (itemsLength items - 1 - p) =
      chunkBitAt f items p := by
  induction items generalizing p with
  | nil => simp [itemsLength] at hp
  | cons it rest ih =>
    have h1 : f it < 2 ^ it.length := hf it (List.mem_cons_self it rest)
    have h2 : foldBits f rest < 2 ^ itemsLength rest :=
      foldBits_lt f rest (fun x hx => hf x (List.mem_cons_of_mem it hx))
    rw [itemsLength_cons] at hp
    rw [foldBits_cons, itemsLength_cons, mul_comm (f it),
      Nat.testBit_mul_pow_two_add (f it) h2]
    rw [chunkBitAt]
    by_cases hc : p < it.length
    · have hcc : ¬ (it.length + itemsLength rest - 1 - p < itemsLength rest) := by
        omega
      rw [if_pos hc, if_neg hcc]
      congr 1
      omega
    · have hcc : it.length + itemsLength rest - 1 - p < itemsLength rest := by
        omega
      rw [if_neg hc, if_pos hcc]
      have hrec := ih (fun x hx => hf x (List.mem_cons_of_mem it hx))
        (p - it.length) (by omega)
      rw [← hrec]
      congr 1
      omega

theorem chunkBitAt_maskChunk (items : List Item) (p : Nat)
    (hp : p < itemsLength items) :
    chunkBitAt maskChunk items p = ! dataAt items p := by
  induction items generalizing p with
  | nil => simp [itemsLength] at hp
  | cons it rest ih =>
    rw [itemsLength_cons] at hp
    cases it with
    | padding l =>
      simp only [Item.length] at hp
      simp only [chunkBitAt, dataAt, Item.length, Item.isData, maskChunk,
        Nat.testBit_two_pow_sub_one]
      by_cases hc : p < l
      · rw [if_pos hc, if_pos hc]
        simp only [Bool.not_false]
        exact decide_eq_true (by omega)
      · rw [if_neg hc, if_neg hc]
        exact ih (p - l) (by omega)
    | field l t n =>
      simp only [Item.length] at hp
      simp only [chunkBitAt, dataAt, Item.length, Item.isData, maskChunk,
        Nat.zero_testBit]
      by_cases hc : p < l
      · rw [if_pos hc, if_pos hc]
        rfl
      · rw [if_neg hc, if_neg hc]
        exact ih (p - l) (by omega)

theorem maskChunk_lt (it : Item) : maskChunk it < 2 ^ it.length := by
  cases it with
  | padding l =>
    simp only [maskChunk, Item.length]
    have h := Nat.two_pow_pos l
    omega
  | field l t n =>
    simp only [maskChunk, Item.length]
    positivity

theorem byteRev_lt (n v : Nat) : byteRev n v < 2 ^ (8 * n) := by
  induction n generalizing v with
  | zero => simp [byteRev]
  | succ n ih =>
    rw [byteRev]
    have h1 : v % 256 < 256 := Nat.mod_lt _ (by norm_num)
    have h2 : byteRev n (v / 256) < 2 ^ (8 * n) := ih (v / 256)
    have h3 : 2 ^ (8 * (n + 1)) = 256 * 2 ^ (8 * n) := by
      rw [show 8 * (n + 1) = 8 + 8 * n by ring, pow_add]
      norm_num
    rw [h3]
    calc v % 256 * 2 ^ (8 * n) + byteRev n (v / 256)
        < (v % 256 + 1) * 2 ^ (8 * n) := by rw [add_mul, one_mul]; omega
      _ ≤ 256 * 2 ^ (8 * n) := Nat.mul_le_mul_right _ (by omega)

theorem byteRev_testBit (n v k t : Nat) (hk : k < n) (ht : t < 8) :
    (byteRev n v).testBit (8 * k + t) = v.testBit (8 * (n - 1 - k) + t) := by
  induction n generalizing v k with
  | zero => omega
  | succ n ih =>
    rw [byteRev, mul_comm (v % 256),
      Nat.testBit_mul_pow_two_add (v % 256) (byteRev_lt n (v / 256))]
    by_cases hc : k < n
    · rw [if_pos (by omega)]
      rw [ih (v / 256) k hc]
      have : (256 : Nat) = 2 ^ 8 := by norm_num
      rw [this, testBit_div_pow]
      congr 1
      omega
    · have hkn : k = n := by omega
      subst hkn
      rw [if_neg (by omega)]
      have : (256 : Nat) = 2 ^ 8 := by norm_num
      rw [this, Nat.testBit_mod_two_pow]
      rw [show 8 * k + t - 8 * k = t by omega,
        show 8 * (k + 1 - 1 - k) + t = t by omega]
      simp [ht]

theorem itemsLength_append (xs ys : List Item) :
    itemsLength (xs ++ ys) = itemsLength xs + itemsLength ys := by
  simp [itemsLength]

theorem dataAt_append (xs ys : List Item) (q : Nat) :
    dataAt (xs ++ ys) q =
      if q < itemsLength xs then dataAt xs q
      else dataAt ys (q - itemsLength xs) := by
  induction xs generalizing q with
  | nil => simp [itemsLength, dataAt]
  | cons it rest ih =>
    rw [List.cons_append, dataAt, dataAt, itemsLength_cons]
    by_cases hc : q < it.length
    · have h2 : q < it.length + itemsLength rest := by omega
      rw [if_pos hc, if_pos h2, if_pos hc]
    · rw [if_neg hc, ih]
      by_cases hc2 : q - it.length < itemsLength rest
      · have h2 : q < it.length + itemsLength rest := by omega
        rw [if_pos hc2, if_pos h2, if_neg hc]
      · have h2 : ¬ q < it.length + itemsLength rest := by omega
        rw [if_neg hc2, if_neg h2]
        congr 1
        omega

/-- Cursor discipline under which the big program is well formed: the
fields not tagged little_endian appear in nondecreasing start_bit order
from cursor c on, each fitting before the next and the last ending within
the frame bit width W. -/
def bigChain (W : Nat) : Nat → List Data → Bool
  | c, [] => decide (c ≤ W)
  | c, d :: rest =>
    if d.byte_order = "little_endian" then bigChain W c rest
    else decide (c ≤ start_bit d) && bigChain W (start_bit d + d.length) rest

/-- Cursor discipline under which the little program is well formed, stated
over the reversed field list that create_little iterates: each field not
tagged big_endian ends at or before the downward cursor e, which then moves
to its start. -/
def littleChainRev : Nat → List Data → Bool
  | _, [] => true
  | e, d :: rest =>
    if d.byte_order = "big_endian" then littleChainRev e rest
    else decide (d.start + d.length ≤ e) && littleChainRev d.start rest

theorem bigChain_le (W c : Nat) (l : List Data) (h : bigChain W c l = true) :
    c ≤ W := by
  induction l generalizing c with
  | nil => rw [bigChain, decide_eq_true_eq] at h; exact h
  | cons d rest ih =>
    rw [bigChain] at h
    by_cases hd : d.byte_order = "little_endian"
    · rw [if_pos hd] at h
      exact ih c h
    · rw [if_neg hd, Bool.and_eq_true, decide_eq_true_eq] at h
      have := ih _ h.2
      omega

theorem bigChain_start_ge (W c : Nat) (l : List Data)
    (h : bigChain W c l = true) :
    ∀ d ∈ l, d.byte_order ≠ "little_endian" →
      c ≤ start_bit d ∧ start_bit d + d.length ≤ W := by
  induction l generalizing c with
  | nil => simp
  | cons d rest ih =>
    rw [bigChain] at h
    intro dd hdd hnl
    by_cases hd : d.byte_order = "little_endian"
    · rw [if_pos hd] at h
      rcases List.mem_cons.mp hdd with rfl | hmem
      · exact absurd hd hnl
      · exact ih c h dd hmem hnl
    · rw [if_neg hd, Bool.and_eq_true, decide_eq_true_eq] at h
      rcases List.mem_cons.mp hdd with rfl | hmem
      · exact ⟨h.1, bigChain_le W _ rest h.2⟩
      · have hr := ih _ h.2 dd hmem hnl
        exact ⟨by omega, hr.2⟩

theorem create_big_items_length (W : Nat) (l : List Data) (c : Nat)
    (h : bigChain W c l = true) :
    itemsLength (create_big_items W l c) = W - c := by
  induction l generalizing c with
  | nil =>
    rw [bigChain, decide_eq_true_eq] at h
    rw [create_big_items]
    by_cases hc : c < W
    · rw [if_pos hc]
      simp [itemsLength, Item.length]
    · rw [if_neg hc]
      simp only [itemsLength, List.map_nil, List.sum_nil]
      omega
  | cons d rest ih =>
    rw [bigChain] at h
    rw [create_big_items]
    by_cases hd : d.byte_order = "little_endian"
    · rw [if_pos hd] at h
      rw [if_pos hd]
      exact ih c h
    · rw [if_neg hd] at h
      rw [if_neg hd]
      rw [Bool.and_eq_true, decide_eq_true_eq] at h
      have hrest := ih _ h.2
      have hW := bigChain_le W _ rest h.2
      rw [itemsLength_append, itemsLength_cons, hrest]
      by_cases hcc : c < start_bit d
      · rw [if_pos hcc]
        simp only [itemsLength, List.map_cons, List.map_nil, List.sum_cons,
          List.sum_nil, Item.length]
        omega
      · rw [if_neg hcc]
        simp only [itemsLength, List.map_nil, List.sum_nil, Item.length]
        omega

theorem create_big_items_dataAt (W : Nat) (l : List Data) (i : Nat)
    (hiW : i < W) (c : Nat) (h : bigChain W c l = true) (hci : c ≤ i) :
    (dataAt (create_big_items W l c) (i - c) = true ↔
      ∃ d ∈ l, d.byte_order ≠ "little_endian" ∧
        start_bit d ≤ i ∧ i < start_bit d + d.length) := by
  induction l generalizing c with
  | nil =>
    rw [create_big_items, if_pos (by omega)]
    rw [dataAt, if_pos (by simp only [Item.length]; omega)]
    simp [Item.isData]
  | cons d rest ih =>
    rw [bigChain] at h
    rw [create_big_items]
    by_cases hd : d.byte_order = "little_endian"
    · rw [if_pos hd] at h
      rw [if_pos hd, ih c h hci]
      constructor
      · rintro ⟨dd, hmem, hx⟩
        exact ⟨dd, List.mem_cons_of_mem d hmem, hx⟩
      · rintro ⟨dd, hmem, hnl, hx⟩
        rcases List.mem_cons.mp hmem with rfl | hmem2
        · exact absurd hd hnl
        · exact ⟨dd, hmem2, hnl, hx⟩
    · rw [if_neg hd] at h ⊢
      rw [Bool.and_eq_true, decide_eq_true_eq] at h
      obtain ⟨hcp, hch⟩ := h
      have hpW : start_bit d + d.length ≤ W := bigChain_le W _ rest hch
      have hge := bigChain_start_ge W _ rest hch
      rw [dataAt_append]
      have hlenpad : itemsLength
          (if c < start_bit d then [Item.padding (start_bit d - c)] else []) =
          start_bit d - c := by
        by_cases hcc : c < start_bit d
        · rw [if_pos hcc]
          simp [itemsLength, Item.length]
        · rw [if_neg hcc]
          simp only [itemsLength, List.map_nil, List.sum_nil]
          omega
      rw [hlenpad]
      by_cases h1 : i < start_bit d
      · have hcc : c < start_bit d := by omega
        rw [if_pos (by omega), if_pos hcc]
        rw [dataAt, if_pos (by simp only [Item.length]; omega)]
        simp only [Item.isData]
        constructor
        · intro hfalse
          exact absurd hfalse (by simp)
        · rintro ⟨dd, hmem, hnl, hr1, hr2⟩
          rcases List.mem_cons.mp hmem with rfl | hmem2
          · omega
          · have hb := hge dd hmem2 hnl
            omega
      · rw [if_neg (by omega)]
        have hq : i - c - (start_bit d - c) = i - start_bit d := by omega
        rw [hq, dataAt]
        by_cases h2 : i < start_bit d + d.length
        · rw [if_pos (by simp only [Item.length]; omega)]
          simp only [Item.isData]
          constructor
          · intro _
            exact ⟨d, List.mem_cons_self d rest, hd, by omega, by omega⟩
          · intro _
            trivial
        · rw [if_neg (by simp only [Item.length]; omega)]
          have hq2 : i - start_bit d -
              (Item.field d.length (get_format_string_type d) d.name).length =
              i - (start_bit d + d.length) := by
            simp only [Item.length]
            omega
          rw [hq2, ih (start_bit d + d.length) hch (by omega)]
          constructor
          · rintro ⟨dd, hmem, hx⟩
            exact ⟨dd, List.mem_cons_of_mem d hmem, hx⟩
          · rintro ⟨dd, hmem, hnl, hr1, hr2⟩
            rcases List.mem_cons.mp hmem with rfl | hmem2
            · omega
            · exact ⟨dd, hmem2, hnl, hr1, hr2⟩

theorem littleChainRev_bound (e : Nat) (l : List Data)
    (h : littleChainRev e l = true) :
    ∀ d ∈ l, d.byte_order ≠ "big_endian" → d.start + d.length ≤ e := by
  induction l generalizing e with
  | nil => simp
  | cons d rest ih =>
    rw [littleChainRev] at h
    intro dd hdd hnb
    by_cases hd : d.byte_order = "big_endian"
    · rw [if_pos hd] at h
      rcases List.mem_cons.mp hdd with rfl | hm
      · exact absurd hd hnb
      · exact ih e h dd hm hnb
    · rw [if_neg hd, Bool.and_eq_true, decide_eq_true_eq] at h
      rcases List.mem_cons.mp hdd with rfl | hm
      · exact h.1
      · have := ih d.start h.2 dd hm hnb
        omega

theorem create_little_items_rev_length (l : List Data) (e : Nat)
    (h : littleChainRev e l = true) :
    itemsLength (create_little_items_rev l e) = e := by
  induction l generalizing e with
  | nil =>
    rw [create_little_items_rev]
    by_cases hc : 0 < e
    · rw [if_pos hc]
      simp [itemsLength, Item.length]
    · rw [if_neg hc]
      simp only [itemsLength, List.map_nil, List.sum_nil]
      omega
  | cons d rest ih =>
    rw [littleChainRev] at h
    rw [create_little_items_rev]
    by_cases hd : d.byte_order = "big_endian"
    · rw [if_pos hd] at h
      rw [if_pos hd]
      exact ih e h
    · rw [if_neg hd] at h
      rw [if_neg hd]
      rw [Bool.and_eq_true, decide_eq_true_eq] at h
      have hrest := ih _ h.2
      rw [itemsLength_append, itemsLength_cons, hrest]
      by_cases hcc : d.start + d.length < e
      · rw [if_pos hcc]
        simp only [itemsLength, List.map_cons, List.map_nil, List.sum_cons,
          List.sum_nil, Item.length]
        omega
      · rw [if_neg hcc]
        simp only [itemsLength, List.map_nil, List.sum_nil, Item.length]
        omega

theorem create_little_items_rev_dataAt (l : List Data) (e p : Nat)
    (h : littleChainRev e l = true) (hp : p < e) :
    (dataAt (create_little_items_rev l e) p = true ↔
      ∃ d ∈ l, d.byte_order ≠ "big_endian" ∧
        e - (d.start + d.length) ≤ p ∧ p < e - d.start) := by
  induction l generalizing e p with
  | nil =>
    rw [create_little_items_rev, if_pos (by omega)]
    rw [dataAt, if_pos (by simp only [Item.length]; omega)]
    simp [Item.isData]
  | cons d rest ih =>
    rw [littleChainRev] at h
    rw [create_little_items_rev]
    by_cases hd : d.byte_order = "big_endian"
    · rw [if_pos hd] at h
      rw [if_pos hd, ih e p h hp]
      constructor
      · rintro ⟨dd, hm, hx⟩
        exact ⟨dd, List.mem_cons_of_mem d hm, hx⟩
      · rintro ⟨dd, hm, hnb, hx⟩
        rcases List.mem_cons.mp hm with rfl | hm2
        · exact absurd hd hnb
        · exact ⟨dd, hm2, hnb, hx⟩
    · rw [if_neg hd] at h ⊢
      rw [Bool.and_eq_true, decide_eq_true_eq] at h
      obtain ⟨hde, hch⟩ := h
      have hbound := littleChainRev_bound d.start rest hch
      rw [dataAt_append]
      have hlenpad : itemsLength
          (if d.start + d.length < e then
            [Item.padding (e - (d.start + d.length))]
          else []) = e - (d.start + d.length) := by
        by_cases hcc : d.start + d.length < e
        · rw [if_pos hcc]
          simp [itemsLength, Item.length]
        · rw [if_neg hcc]
          simp only [itemsLength, List.map_nil, List.sum_nil]
          omega
      rw [hlenpad]
      by_cases h1 : p < e - (d.start + d.length)
      · rw [if_pos h1, if_pos (by omega)]
        rw [dataAt, if_pos (by simp only [Item.length]; omega)]
        simp only [Item.isData]
        constructor
        · intro hfalse
          exact absurd hfalse (by simp)
        · rintro ⟨dd, hm, hnb, hr1, hr2⟩
          rcases List.mem_cons.mp hm with rfl | hm2
          · omega
          · have hb := hbound dd hm2 hnb
            omega
      · rw [if_neg h1, dataAt]
        by_cases h2 : p < e - d.start
        · rw [if_pos (by simp only [Item.length]; omega)]
          simp only [Item.isData]
          constructor
          · intro _
            exact ⟨d, List.mem_cons_self d rest, hd, by omega, by omega⟩
          · intro _
            trivial
        · rw [if_neg (by simp only [Item.length]; omega)]
          have hq : p - (e - (d.start + d.length)) -
              (Item.field d.length (get_format_string_type d) d.name).length =
              p - (e - d.start) := by
            simp only [Item.length]
            omega
          rw [hq, ih d.start (p - (e - d.start)) hch (by omega)]
          constructor
          · rintro ⟨dd, hm, hnb, hr1, hr2⟩
            have hb := hbound dd hm hnb
            exact ⟨dd, List.mem_cons_of_mem d hm, hnb, by omega, by omega⟩
          · rintro ⟨dd, hm, hnb, hr1, hr2⟩
            rcases List.mem_cons.mp hm with rfl | hm2
            · omega
            · have hb := hbound dd hm2 hnb
              exact ⟨dd, hm2, hnb, by omega, by omega⟩

theorem create_big_items_eq_spec_loop (W : Nat) (l : List Data) (c : Nat)
    (h : ∀ d ∈ l, d.byte_order = "big_endian" ∨ d.byte_order = "little_endian") :
    create_big_items W l c =
      spec_big_program_loop W
        (l.filter (fun d => d.byte_order = "big_endian")) c := by
  induction l generalizing c with
  | nil => rfl
  | cons d rest ih =>
    have ihr := fun c => ih c (fun x hx => h x (List.mem_cons_of_mem d hx))
    rcases h d (List.mem_cons_self d rest) with hb | hl
    · have hnl : ¬ d.byte_order = "little_endian" := by rw [hb]; decide
      have hsb : start_bit d = 8 * (d.start / 8) + (7 - d.start % 8) := by
        rw [start_bit, if_pos hb]
      rw [create_big_items, if_neg hnl,
        List.filter_cons_of_pos (by simp [hb]), spec_big_program_loop]
      simp only [hsb, ihr]
    · have hnb : ¬ d.byte_order = "big_endian" := by rw [hl]; decide
      rw [create_big_items, if_pos hl,
        List.filter_cons_of_neg (by simp [hnb]), ihr]

theorem create_little_items_rev_eq_spec_loop (l : List Data) (c : Nat)
    (h : ∀ d ∈ l, d.byte_order = "big_endian" ∨ d.byte_order = "little_endian") :
    create_little_items_rev l c =
      spec_little_program_loop
        (l.filter (fun d => d.byte_order = "little_endian")) c := by
  induction l generalizing c with
  | nil => rfl
  | cons d rest ih =>
    have ihr := fun c => ih c (fun x hx => h x (List.mem_cons_of_mem d hx))
    rcases h d (List.mem_cons_self d rest) with hb | hl
    · have hnl : ¬ d.byte_order = "little_endian" := by rw [hb]; decide
      rw [create_little_items_rev, if_pos hb,
        List.filter_cons_of_neg (by simp [hnl]), ihr]
    · have hnb : ¬ d.byte_order = "big_endian" := by rw [hl]; decide
      rw [create_little_items_rev, if_neg hnb,
        List.filter_cons_of_pos (by simp [hl]), spec_little_program_loop]
      simp only [ihr]

/-- C4: for every list of valid field descriptors (each byte order is
big_endian or little_endian) and every frame bit width W, the program built
by create_big is exactly the cursor algorithm stated by the spec: cursor
from 0 over the big-endian fields in declaration order, p = 8 * (start / 8)
+ (7 - start % 8), a padding item of width p - cursor when p > cursor, a
data item of the field width and kind, cursor advanced to p + width, and a
trailing padding item of width W - cursor when cursor < W. -/
theorem create_big_follows_spec (datas : List Data) (W : Nat)
    (h : ∀ d ∈ datas,
      d.byte_order = "big_endian" ∨ d.byte_order = "little_endian") :
    (create_big datas W).1 = spec_big_program datas W :=
  create_big_items_eq_spec_loop W datas 0 h

/-- C4 witness: create_big_follows_spec applied to a concrete two-field
frame of 24 bits. -/
theorem create_big_follows_spec_witness :
    (create_big
      [{ name := "a", start := 7, length := 4, byte_order := "big_endian" },
       { name := "b", start := 8, length := 8, byte_order := "little_endian" }]
      24).1 =
    spec_big_program
      [{ name := "a", start := 7, length := 4, byte_order := "big_endian" },
       { name := "b", start := 8, length := 8, byte_order := "little_endian" }]
      24 :=
  create_big_follows_spec _ 24 (by decide)

/-- C5: for every list of valid field descriptors (each byte order is
big_endian or little_endian) and every frame bit width W, the program built
by create_little is exactly the cursor algorithm stated by the spec: walk
the little-endian fields in reverse declaration order with a cursor
starting at W and moving downward, a padding item of width
cursor - (start + width) when that gap is positive, a data item of the
field width and kind, the cursor then set to start, and a final padding
item of the remaining cursor when positive. That this layout is applied
against a byte-order-reversed view of the frame is the subject of the
encode_data and decode_data theorems. -/
theorem create_little_follows_spec (datas : List Data) (W : Nat)
    (h : ∀ d ∈ datas,
      d.byte_order = "big_endian" ∨ d.byte_order = "little_endian") :
    (create_little datas W).1 = spec_little_program datas W := by
  show create_little_items datas W = _
  rw [create_little_items,
    create_little_items_rev_eq_spec_loop datas.reverse W
      (fun d hd => h d (List.mem_reverse.mp hd)),
    spec_little_program, List.filter_reverse]

/-- C5 witness: create_little_follows_spec applied to a concrete two-field
frame of 24 bits. -/
theorem create_little_follows_spec_witness :
    (create_little
      [{ name := "a", start := 7, length := 4, byte_order := "big_endian" },
       { name := "b", start := 8, length := 8, byte_order := "little_endian" }]
      24).1 =
    spec_little_program
      [{ name := "a", start := 7, length := 4, byte_order := "big_endian" },
       { name := "b", start := 8, length := 8, byte_order := "little_endian" }]
      24 :=
  create_little_follows_spec _ 24 (by decide)

/-- Frame bit position addressed by local position i of the byte-order
reversed view of an nb-byte frame: byte k of the reversed view is byte
nb - 1 - k of the natural frame, bit offsets within a byte unchanged. -/
def revBit (nb i : Nat) : Nat := 8 * (nb - 1 - i / 8) + i % 8

theorem revBit_lt (nb i : Nat) (h : i < 8 * nb) : revBit nb i < 8 * nb := by
  rw [revBit]
  omega

theorem revBit_invol (nb i : Nat) (h : i < 8 * nb) :
    revBit nb (revBit nb i) = i := by
  rw [revBit, revBit]
  omega

theorem byteRev_testBit_frame (nb v i : Nat) (hi : i < 8 * nb) :
    (byteRev nb v).testBit (8 * nb - 1 - i) =
      v.testBit (8 * nb - 1 - revBit nb i) := by
  have hk : (8 * nb - 1 - i) / 8 < nb := by omega
  have ht : (8 * nb - 1 - i) % 8 < 8 := by omega
  have hdecomp : 8 * nb - 1 - i =
      8 * ((8 * nb - 1 - i) / 8) + (8 * nb - 1 - i) % 8 := by omega
  rw [hdecomp, byteRev_testBit nb v _ _ hk ht]
  congr 1
  rw [revBit]
  omega

/-- Frame bit positions that the big program claims as real data. -/
def bigDataBits (datas : List Data) (nb : Nat) : Finset ℕ :=
  (Finset.range (8 * nb)).filter (fun i =>
    dataAt (create_encode_decode_formats datas nb).big_endian i = true)

/-- Frame bit positions that the little program, read against the
byte-order-reversed frame, claims as real data. -/
def littleDataBits (datas : List Data) (nb : Nat) : Finset ℕ :=
  (Finset.range (8 * nb)).filter (fun i =>
    dataAt (create_encode_decode_formats datas nb).little_endian
      (revBit nb i) = true)

/-- Frame bit positions marked in a mask integer: frame bit i is bit
8 * nb - 1 - i of the integer. -/
def maskBits (nb : Nat) (mask : Nat) : Finset ℕ :=
  (Finset.range (8 * nb)).filter (fun i => mask.testBit (8 * nb - 1 - i))

/-- The frame bit positions a field owns: a big-endian field spans from its
frame-relative MSB-first position start_bit; a little-endian field owns the
frame positions whose reversed-view image lies in its program range. -/
def fieldFrameBits (nb : Nat) (d : Data) : Finset ℕ :=
  if d.byte_order = "little_endian" then
    (Finset.Ico (8 * nb - (d.start + d.length)) (8 * nb - d.start)).image
      (revBit nb)
  else
    Finset.Ico (start_bit d) (start_bit d + d.length)

/-- A valid frame in the sense of the claim: descriptor-valid fields whose
bit ranges lie within the frame and are pairwise non-overlapping. -/
def validFrame (datas : List Data) (nb : Nat) : Prop :=
  (∀ d ∈ datas,
    (d.byte_order = "big_endian" ∨ d.byte_order = "little_endian") ∧
    1 ≤ d.length ∧
    (if d.byte_order = "little_endian" then d.start + d.length ≤ 8 * nb
     else start_bit d + d.length ≤ 8 * nb)) ∧
  List.Pairwise
    (fun d1 d2 => Disjoint (fieldFrameBits nb d1) (fieldFrameBits nb d2)) datas

/-- The coverage property asserted by the claim: the two data bit sets are
disjoint from each other and from the combined padding mask bits, and the
three together cover every bit of the frame. -/
def layoutPartition (datas : List Data) (nb : Nat) : Prop :=
  Disjoint (bigDataBits datas nb) (littleDataBits datas nb) ∧
  Disjoint (bigDataBits datas nb)
    (maskBits nb (create_encode_decode_formats datas nb).padding_mask) ∧
  Disjoint (littleDataBits datas nb)
    (maskBits nb (create_encode_decode_formats datas nb).padding_mask) ∧
  bigDataBits datas nb ∪ littleDataBits datas nb ∪
    maskBits nb (create_encode_decode_formats datas nb).padding_mask =
    Finset.range (8 * nb)

theorem mem_image_revBit (nb a b i : Nat) (hb : b ≤ 8 * nb) (hi : i < 8 * nb) :
    (i ∈ (Finset.Ico a b).image (revBit nb)) ↔
      (a ≤ revBit nb i ∧ revBit nb i < b) := by
  simp only [Finset.mem_image, Finset.mem_Ico]
  constructor
  · rintro ⟨q, ⟨hqa, hqb⟩, hq⟩
    have hqW : q < 8 * nb := by omega
    rw [← hq, revBit_invol nb q hqW]
    exact ⟨hqa, hqb⟩
  · rintro ⟨h1, h2⟩
    exact ⟨revBit nb i, ⟨h1, h2⟩, revBit_invol nb i hi⟩

/-- Integer value of a byte string read in natural (big-endian) order; the
int(binascii.hexlify(b), 16) idiom of the Python code. -/
def hexInt (bs : List Nat) : Nat := bs.foldl (fun acc b => acc * 256 + b) 0

/-- Big-endian byte string, n bytes, of a value below 256 ^ n. -/
def natToBytes : Nat → Nat → List Nat
  | 0, _ => []
  | n + 1, v => v / 256 ^ n % 256 :: natToBytes n (v % 256 ^ n)

/-- Chunk value an item contributes during bitstruct packing from a value
assignment: a padding item packs as zero bits, an integer data item packs
its value in two's complement within its width (equal to the plain binary
value for in-range unsigned values). IEEE float packing (format character
f) is not modelled; every packing theorem below is restricted to frames
without float fields. -/
def packChunk (vals : String → ℚ) : Item → Nat
  | Item.padding _ => 0
  | Item.field len _ name => (⌊vals name⌋ % (2 ^ len : ℤ)).toNat

/-- Bit image of a layout packed from a value assignment: an
itemsLength-bit integer. -/
def packItems (items : List Item) (vals : String → ℚ) : Nat :=
  foldBits (packChunk vals) items

/-- Modelled from the spec: the bitstruct backend (an external collaborator
per spec section 9) packs a compiled format into ceil(L/8) bytes, the L
format bits first, zero bits filling the low end of the last byte. -/
def packBytes (items : List Item) (vals : String → ℚ) : List Nat :=
  natToBytes ((itemsLength items + 7) / 8)
    (packItems items vals *
      2 ^ (8 * ((itemsLength items + 7) / 8) - itemsLength items))

/-- Decode a raw chunk of width len: signed chunks are two's complement;
unsigned (and, nominally, float) chunks are the raw value. -/
def decodeChunk (t : FmtType) (len c : Nat) : ℤ :=
  match t with
  | FmtType.s => if c < 2 ^ (len - 1) then (c : ℤ) else (c : ℤ) - 2 ^ len
  | _ => (c : ℤ)

/-- Unpack the top L bits of a buffer value against a layout. -/
def unpackItems : List Item → Nat → Nat → List (String × ℤ)
  | [], _, _ => []
  | Item.padding len :: rest, buf, L =>
    unpackItems rest (buf % 2 ^ (L - len)) (L - len)
  | Item.field len t name :: rest, buf, L =>
    (name, decodeChunk t len (buf / 2 ^ (L - len))) ::
      unpackItems rest (buf % 2 ^ (L - len)) (L - len)

/-- Modelled from the spec: bitstruct unpack of a byte string reads the
first itemsLength bits of the buffer. -/
def unpackBytes (items : List Item) (bs : List Nat) : List (String × ℤ) :=
  unpackItems items
    (hexInt bs / 2 ^ (8 * bs.length - itemsLength items)) (itemsLength items)

/-- Per-field encoded raw values, as the dict comprehension of encode_data
(src/cantools/database/utils.py) builds them; None models an UnknownChoice
exception escaping the comprehension. -/
def encoded_values (fields : List Data) (data : String → Value)
    (scaling : Bool) : Option (List (String × ℚ)) :=
  fields.mapM (fun f => (_encode_field f data scaling).map (fun q => (f.name, q)))

/-- Dictionary access performed by bitstruct for each name of the compiled
format; 0 stands for a KeyError, which the theorems below exclude. -/
def lookupQ (l : List (String × ℚ)) (name : String) : ℚ :=
  match l.lookup name with
  | some q => q
  | none => 0

/-- Translation of encode_data (src/cantools/database/utils.py): 0 for an
empty field list; otherwise pack the encoded values with the big program,
pack them with the little program and reverse those bytes, read both byte
strings as integers and take their bitwise or. -/
def encode_data (data : String → Value) (fields : List Data)
    (formats : Formats) (scaling : Bool) : Option Nat :=
  if fields = [] then some 0
  else
    (encoded_values fields data scaling).map (fun unpacked =>
      hexInt (packBytes formats.big_endian (lookupQ unpacked)) |||
      hexInt ((packBytes formats.little_endian (lookupQ unpacked)).reverse))

/-- Translation of decode_data (src/cantools/database/utils.py): unpack the
natural buffer with the big program, update the result with the little
program applied to the reversed buffer (so little entries take precedence),
then decode each field; None models a KeyError for a missing name. -/
def decode_data (data : List Nat) (fields : List Data) (formats : Formats)
    (decode_choices : Bool) (scaling : Bool) :
    Option (List (String × Value)) :=
  fields.mapM (fun f =>
    (((unpackBytes formats.little_endian data.reverse).lookup f.name).orElse
        (fun _ => (unpackBytes formats.big_endian data).lookup f.name)).map
      (fun v => (f.name, _decode_field f v decode_choices scaling)))

/-- The spec phrasing of the encode merge: interpret the big packing and
the byte-order-reversed little packing as unsigned integers and take their
bitwise or. -/
def spec_encode_union (data : String → Value) (fields : List Data)
    (formats : Formats) (scaling : Bool) : Option Nat :=
  (encoded_values fields data scaling).map (fun unpacked =>
    packItems formats.big_endian (lookupQ unpacked) *
        2 ^ (8 * ((itemsLength formats.big_endian + 7) / 8) -
          itemsLength formats.big_endian) |||
    byteRev ((itemsLength formats.little_endian + 7) / 8)
      (packItems formats.little_endian (lookupQ unpacked) *
        2 ^ (8 * ((itemsLength formats.little_endian + 7) / 8) -
          itemsLength formats.little_endian)))

/-- The spec phrasing of the decode merge: unpack the natural buffer with
the big program and the byte-reversed buffer with the little program, and
merge the two results by union (they use disjoint name sets). -/
def spec_decode_union (data : List Nat) (fields : List Data)
    (formats : Formats) (decode_choices : Bool) (scaling : Bool) :
    Option (List (String × Value)) :=
  fields.mapM (fun f =>
    ((unpackBytes formats.big_endian data ++
        unpackBytes formats.little_endian data.reverse).lookup f.name).map
      (fun v => (f.name, _decode_field f v decode_choices scaling)))

theorem hexInt_foldl (bs : List Nat) (acc : Nat) :
    bs.foldl (fun a b => a * 256 + b) acc = acc * 256 ^ bs.length + hexInt bs := by
  induction bs generalizing acc with
  | nil => simp [hexInt]
  | cons b rest ih =>
    show List.foldl _ (acc * 256 + b) rest = _
    rw [ih]
    have h2 : hexInt (b :: rest) = b * 256 ^ rest.length + hexInt rest := by
      show List.foldl _ (0 * 256 + b) rest = _
      rw [ih]
      ring
    rw [h2, List.length_cons, pow_succ]
    ring

theorem hexInt_cons (b : Nat) (rest : List Nat) :
    hexInt (b :: rest) = b * 256 ^ rest.length + hexInt rest := by
  show List.foldl _ (0 * 256 + b) rest = _
  rw [hexInt_foldl]
  ring

theorem hexInt_append_singleton (xs : List Nat) (b : Nat) :
    hexInt (xs ++ [b]) = hexInt xs * 256 + b := by
  show List.foldl _ 0 (xs ++ [b]) = _
  rw [List.foldl_append]
  rfl

theorem natToBytes_length (n v : Nat) : (natToBytes n v).length = n := by
  induction n generalizing v with
  | zero => rfl
  | succ n ih => rw [natToBytes, List.length_cons, ih]

theorem hexInt_natToBytes (n v : Nat) (h : v < 256 ^ n) :
    hexInt (natToBytes n v) = v := by
  induction n generalizing v with
  | zero =>
    simp only [natToBytes, hexInt, List.foldl_nil]
    omega
  | succ n ih =>
    rw [natToBytes, hexInt_cons, natToBytes_length,
      ih (v % 256 ^ n) (Nat.mod_lt _ (by positivity))]
    have hd : v / 256 ^ n < 256 :=
      Nat.div_lt_of_lt_mul (by rw [← pow_succ]; exact h)
    rw [Nat.mod_eq_of_lt hd]
    exact Nat.div_add_mod' v (256 ^ n)

theorem byteRev_succ_msb (n v : Nat) (h : v < 256 ^ (n + 1)) :
    byteRev (n + 1) v = byteRev n (v % 256 ^ n) * 256 + v / 256 ^ n := by
  induction n generalizing v with
  | zero =>
    simp only [byteRev, pow_zero, pow_one] at *
    omega
  | succ n ih =>
    have hdiv : v / 256 < 256 ^ (n + 1) := by
      apply Nat.div_lt_of_lt_mul
      calc v < 256 ^ (n + 2) := h
        _ = 256 * 256 ^ (n + 1) := by rw [pow_succ]; ring
    rw [byteRev, ih (v / 256) hdiv, byteRev]
    have h1 : v % 256 ^ (n + 1) % 256 = v % 256 :=
      Nat.mod_mod_of_dvd v (dvd_pow_self 256 (by omega))
    have h2 : v % 256 ^ (n + 1) / 256 = v / 256 % 256 ^ n := by
      rw [show (256 : Nat) ^ (n + 1) = 256 * 256 ^ n by rw [pow_succ]; ring]
      rw [Nat.mod_mul_right_div_self]
    have h3 : v / 256 / 256 ^ n = v / 256 ^ (n + 1) := by
      rw [Nat.div_div_eq_div_mul, show (256 : Nat) ^ (n + 1) = 256 * 256 ^ n
        by rw [pow_succ]; ring]
    rw [h1, h2, h3]
    have h4 : 2 ^ (8 * (n + 1)) = 2 ^ (8 * n) * 256 := by
      rw [show 8 * (n + 1) = 8 * n + 8 by ring, pow_add]
      norm_num
    rw [h4]
    ring

theorem hexInt_reverse_natToBytes (n v : Nat) (h : v < 256 ^ n) :
    hexInt (natToBytes n v).reverse = byteRev n v := by
  induction n generalizing v with
  | zero => rfl
  | succ n ih =>
    rw [natToBytes, List.reverse_cons, hexInt_append_singleton,
      ih (v % 256 ^ n) (Nat.mod_lt _ (by positivity))]
    have hd : v / 256 ^ n < 256 :=
      Nat.div_lt_of_lt_mul (by rw [← pow_succ]; exact h)
    rw [Nat.mod_eq_of_lt hd, byteRev_succ_msb n v h]

theorem packChunk_lt (vals : String → ℚ) (it : Item) :
    packChunk vals it < 2 ^ it.length := by
  cases it with
  | padding l =>
    simp only [packChunk, Item.length]
    positivity
  | field l t name =>
    simp only [packChunk, Item.length]
    have h1 : (0 : ℤ) < 2 ^ l := by positivity
    have h2 := Int.emod_nonneg ⌊vals name⌋ (ne_of_gt h1)
    have h3 := Int.emod_lt_of_pos ⌊vals name⌋ h1
    have h4 : ((2 ^ l : ℕ) : ℤ) = (2 : ℤ) ^ l := by push_cast; ring
    omega

theorem packItems_lt (items : List Item) (vals : String → ℚ) :
    packItems items vals < 2 ^ itemsLength items :=
  foldBits_lt _ _ (fun it _ => packChunk_lt vals it)

theorem lookup_append {β : Type} (xs ys : List (String × β)) (n : String) :
    (xs ++ ys).lookup n =
      (List.lookup n xs).orElse (fun _ => List.lookup n ys) := by
  induction xs with
  | nil => simp [List.lookup, Option.orElse]
  | cons p rest ih =>
    obtain ⟨k, v⟩ := p
    rw [List.cons_append]
    simp only [List.lookup]
    by_cases h : (n == k) = true
    · simp [h, Option.orElse]
    · simp only [Bool.not_eq_true] at h
      simp [h, ih, Option.orElse]

theorem lookup_eq_none_of_not_mem {β : Type} (l : List (String × β))
    (n : String) (h : n ∉ l.map Prod.fst) : List.lookup n l = none := by
  induction l with
  | nil => rfl
  | cons p rest ih =>
    obtain ⟨k, v⟩ := p
    simp only [List.map_cons, List.mem_cons, not_or] at h
    simp only [List.lookup]
    have hnk : (n == k) = false := by simp [h.1]
    rw [hnk, ih h.2]

theorem mem_keys_of_lookup {β : Type} (l : List (String × β)) (n : String)
    (v : β) (h : List.lookup n l = some v) : n ∈ l.map Prod.fst := by
  induction l with
  | nil => simp [List.lookup] at h
  | cons p rest ih =>
    obtain ⟨k, w⟩ := p
    simp only [List.lookup] at h
    simp only [List.map_cons, List.mem_cons]
    by_cases hk : (n == k) = true
    · exact Or.inl (by simpa using hk)
    · have hk' : (n == k) = false := by simpa using hk
      rw [hk'] at h
      exact Or.inr (ih h)

theorem lookup_union_of_disjoint {β : Type} (xs ys : List (String × β))
    (n : String) (hd : ∀ m ∈ ys.map Prod.fst, m ∉ xs.map Prod.fst) :
    (List.lookup n ys).orElse (fun _ => List.lookup n xs) =
      (xs ++ ys).lookup n := by
  rw [lookup_append]
  cases hy : List.lookup n ys with
  | some v =>
    have hnone : List.lookup n xs = none :=
      lookup_eq_none_of_not_mem xs n (hd n (mem_keys_of_lookup ys n v hy))
    rw [hnone]
    simp [Option.orElse]
  | none =>
    cases hx : List.lookup n xs <;> simp [Option.orElse]

theorem unpackItems_keys (items : List Item) (buf L : Nat) :
    (unpackItems items buf L).map Prod.fst = itemNames items := by
  induction items generalizing buf L with
  | nil => rfl
  | cons it rest ih =>
    cases it with
    | padding len => simp [unpackItems, itemNames, ih, List.filterMap_cons]
    | field len t name => simp [unpackItems, itemNames, ih, List.filterMap_cons]

theorem unpackBytes_keys (items : List Item) (bs : List Nat) :
    (unpackBytes items bs).map Prod.fst = itemNames items :=
  unpackItems_keys _ _ _

theorem packAligned_lt (items : List Item) (vals : String → ℚ) :
    packItems items vals *
      2 ^ (8 * ((itemsLength items + 7) / 8) - itemsLength items) <
      256 ^ ((itemsLength items + 7) / 8) := by
  have h1 := packItems_lt items vals
  have h2 : itemsLength items ≤ 8 * ((itemsLength items + 7) / 8) := by omega
  calc packItems items vals *
      2 ^ (8 * ((itemsLength items + 7) / 8) - itemsLength items)
      < 2 ^ itemsLength items *
        2 ^ (8 * ((itemsLength items + 7) / 8) - itemsLength items) :=
        Nat.mul_lt_mul_of_lt_of_le h1 (le_refl _) (by positivity)
    _ = 2 ^ (8 * ((itemsLength items + 7) / 8)) := by
        rw [← pow_add]
        congr 1
        omega
    _ = 256 ^ ((itemsLength items + 7) / 8) := by
        rw [pow_mul]
        norm_num

theorem unpackItems_foldBits (items : List Item) (f : Item → Nat)
    (hf : ∀ it ∈ items, f it < 2 ^ it.length) :
    unpackItems items (foldBits f items) (itemsLength items) =
      items.filterMap (fun it => match it with
        | Item.padding _ => none
        | Item.field len t name =>
          some (name, decodeChunk t len (f (Item.field len t name)))) := by
  induction items with
  | nil => rfl
  | cons it rest ih =>
    have hrest : foldBits f rest < 2 ^ itemsLength rest :=
      foldBits_lt f rest (fun x hx => hf x (List.mem_cons_of_mem it hx))
    have hihr := ih (fun x hx => hf x (List.mem_cons_of_mem it hx))
    cases it with
    | padding len =>
      rw [foldBits_cons, itemsLength_cons, unpackItems]
      simp only [Item.length]
      have h1 : len + itemsLength rest - len = itemsLength rest := by omega
      rw [h1]
      have h2 : (f (Item.padding len) * 2 ^ itemsLength rest +
          foldBits f rest) % 2 ^ itemsLength rest = foldBits f rest := by
        rw [Nat.mul_comm, Nat.mul_add_mod, Nat.mod_eq_of_lt hrest]
      rw [h2, hihr, List.filterMap_cons]
    | field len t name =>
      rw [foldBits_cons, itemsLength_cons, unpackItems]
      simp only [Item.length]
      have h1 : len + itemsLength rest - len = itemsLength rest := by omega
      rw [h1]
      have h2 : (f (Item.field len t name) * 2 ^ itemsLength rest +
          foldBits f rest) % 2 ^ itemsLength rest = foldBits f rest := by
        rw [Nat.mul_comm, Nat.mul_add_mod, Nat.mod_eq_of_lt hrest]
      have h3 : (f (Item.field len t name) * 2 ^ itemsLength rest +
          foldBits f rest) / 2 ^ itemsLength rest = f (Item.field len t name) := by
        rw [Nat.mul_comm, Nat.mul_add_div (by positivity),
          Nat.div_eq_of_lt hrest, Nat.add_zero]
      rw [h2, h3, hihr, List.filterMap_cons]

theorem chunkBitAt_eq_false_of_not_data (f : Item → Nat)
    (hpad : ∀ l, f (Item.padding l) = 0) (items : List Item) (q : Nat)
    (hq : dataAt items q = false) :
    chunkBitAt f items q = false := by
  induction items generalizing q with
  | nil => rfl
  | cons it rest ih =>
    rw [chunkBitAt]
    rw [dataAt] at hq
    by_cases hc : q < it.length
    · rw [if_pos hc]
      rw [if_pos hc] at hq
      cases it with
      | padding l =>
        rw [hpad]
        exact Nat.zero_testBit _
      | field l t name => simp [Item.isData] at hq
    · rw [if_neg hc]
      rw [if_neg hc] at hq
      exact ih _ hq

theorem unpackItems_congr (items : List Item) (A B : Nat)
    (hA : A < 2 ^ itemsLength items) (hB : B < 2 ^ itemsLength items)
    (hbits : ∀ p, p < itemsLength items → dataAt items p = true →
      A.testBit (itemsLength items - 1 - p) =
        B.testBit (itemsLength items - 1 - p)) :
    unpackItems items A (itemsLength items) =
      unpackItems items B (itemsLength items) := by
  induction items generalizing A B with
  | nil => rfl
  | cons it rest ih =>
    have hLc : itemsLength (it :: rest) = it.length + itemsLength rest :=
      itemsLength_cons it rest
    have hmodA : A % 2 ^ itemsLength rest < 2 ^ itemsLength rest :=
      Nat.mod_lt _ (by positivity)
    have hmodB : B % 2 ^ itemsLength rest < 2 ^ itemsLength rest :=
      Nat.mod_lt _ (by positivity)
    have htail : ∀ p, p < itemsLength rest → dataAt rest p = true →
        (A % 2 ^ itemsLength rest).testBit (itemsLength rest - 1 - p) =
          (B % 2 ^ itemsLength rest).testBit (itemsLength rest - 1 - p) := by
      intro p hp hd
      rw [Nat.testBit_mod_two_pow, Nat.testBit_mod_two_pow,
        decide_eq_true (by omega : itemsLength rest - 1 - p < itemsLength rest)]
      simp only [Bool.true_and]
      have hbig := hbits (it.length + p) (by omega)
        (by rw [dataAt, if_neg (by omega)]
            have : it.length + p - it.length = p := by omega
            rw [this, hd])
      have hidx : itemsLength (it :: rest) - 1 - (it.length + p) =
          itemsLength rest - 1 - p := by omega
      rw [hidx] at hbig
      exact hbig
    cases it with
    | padding len =>
      rw [unpackItems, unpackItems]
      simp only [Item.length] at hLc ⊢
      have h1 : itemsLength (Item.padding len :: rest) - len =
          itemsLength rest := by
        rw [hLc]
        omega
      rw [h1]
      exact ih _ _ hmodA hmodB htail
    | field len t name =>
      rw [unpackItems, unpackItems]
      simp only [Item.length] at hLc ⊢
      have h1 : itemsLength (Item.field len t name :: rest) - len =
          itemsLength rest := by
        rw [hLc]
        omega
      rw [h1]
      have hchunk : A / 2 ^ itemsLength rest = B / 2 ^ itemsLength rest := by
        apply Nat.eq_of_testBit_eq
        intro j
        by_cases hj : j < len
        · rw [testBit_div_pow, testBit_div_pow]
          have hbig := hbits (len - 1 - j) (by omega)
            (by rw [dataAt, if_pos (by simp only [Item.length]; omega)]
                rfl)
          have hidx : itemsLength (Item.field len t name :: rest) - 1 -
              (len - 1 - j) = itemsLength rest + j := by
            rw [hLc]
            omega
          rw [hidx] at hbig
          exact hbig
        · have hAd : A / 2 ^ itemsLength rest < 2 ^ len := by
            apply Nat.div_lt_of_lt_mul
            rw [← pow_add]
            have : itemsLength rest + len = len + itemsLength rest := by omega
            rw [this, ← hLc]
            exact hA
          have hBd : B / 2 ^ itemsLength rest < 2 ^ len := by
            apply Nat.div_lt_of_lt_mul
            rw [← pow_add]
            have : itemsLength rest + len = len + itemsLength rest := by omega
            rw [this, ← hLc]
            exact hB
          rw [Nat.testBit_lt_two_pow, Nat.testBit_lt_two_pow]
          · calc B / 2 ^ itemsLength rest < 2 ^ len := hBd
              _ ≤ 2 ^ j := Nat.pow_le_pow_right (by omega) (by omega)
          · calc A / 2 ^ itemsLength rest < 2 ^ len := hAd
              _ ≤ 2 ^ j := Nat.pow_le_pow_right (by omega) (by omega)
      rw [hchunk]
      rw [ih _ _ hmodA hmodB htail]

theorem byteRev_lor (n x y : Nat) :
    byteRev n (x ||| y) = byteRev n x ||| byteRev n y := by
  apply Nat.eq_of_testBit_eq
  intro j
  by_cases hj : j < 8 * n
  · have hk : j / 8 < n := by omega
    have ht : j % 8 < 8 := by omega
    have hdecomp : j = 8 * (j / 8) + j % 8 := by omega
    rw [hdecomp, Nat.testBit_or, byteRev_testBit n _ _ _ hk ht,
      byteRev_testBit n _ _ _ hk ht, byteRev_testBit n _ _ _ hk ht,
      Nat.testBit_or]
  · have h1 : byteRev n (x ||| y) < 2 ^ j :=
      lt_of_lt_of_le (byteRev_lt n _) (Nat.pow_le_pow_right (by omega) (by omega))
    have h2 : byteRev n x ||| byteRev n y < 2 ^ j := by
      apply lt_of_lt_of_le _ (Nat.pow_le_pow_right (by omega) (by omega) :
        2 ^ (8 * n) ≤ 2 ^ j)
      exact Nat.or_lt_two_pow (byteRev_lt n x) (byteRev_lt n y)
    rw [Nat.testBit_lt_two_pow h1, Nat.testBit_lt_two_pow h2]

theorem byteRev_byteRev (n v : Nat) (h : v < 2 ^ (8 * n)) :
    byteRev n (byteRev n v) = v := by
  apply Nat.eq_of_testBit_eq
  intro j
  by_cases hj : j < 8 * n
  · have hk : j / 8 < n := by omega
    have ht : j % 8 < 8 := by omega
    have hdecomp : j = 8 * (j / 8) + j % 8 := by omega
    rw [hdecomp, byteRev_testBit n _ _ _ hk ht,
      byteRev_testBit n _ _ _ (by omega) ht]
    congr 1
    omega
  · rw [Nat.testBit_lt_two_pow, Nat.testBit_lt_two_pow]
    · exact lt_of_lt_of_le h (Nat.pow_le_pow_right (by omega) (by omega))
    · exact lt_of_lt_of_le (byteRev_lt n _)
        (Nat.pow_le_pow_right (by omega) (by omega))

theorem create_big_items_filterMap {α : Type} (W : Nat) (l : List Data)
    (c : Nat) (g : Item → Option α) (hg : ∀ len, g (Item.padding len) = none) :
    (create_big_items W l c).filterMap g =
      (l.filter (fun d => ¬ d.byte_order = "little_endian")).filterMap
        (fun d => g (Item.field d.length (get_format_string_type d) d.name)) := by
  induction l generalizing c with
  | nil =>
    rw [create_big_items]
    by_cases hc : c < W
    · rw [if_pos hc]
      simp [List.filterMap_cons, hg]
    · rw [if_neg hc]
      rfl
  | cons d rest ih =>
    rw [create_big_items]
    by_cases hd : d.byte_order = "little_endian"
    · rw [if_pos hd, List.filter_cons_of_neg (by simp [hd]), ih]
    · rw [if_neg hd, List.filter_cons_of_pos (by simp [hd]),
        List.filterMap_append, List.filterMap_cons]
      have hpadnil : List.filterMap g
          (if c < start_bit d then [Item.padding (start_bit d - c)] else []) =
          [] := by
        by_cases hcc : c < start_bit d
        · rw [if_pos hcc]
          simp [List.filterMap_cons, hg]
        · rw [if_neg hcc]
          rfl
      rw [hpadnil, List.nil_append, List.filterMap_cons]
      cases hgf : g (Item.field d.length (get_format_string_type d) d.name) with
      | none => rw [ih]
      | some a => rw [ih]

theorem create_little_items_rev_filterMap {α : Type} (l : List Data) (e : Nat)
    (g : Item → Option α) (hg : ∀ len, g (Item.padding len) = none) :
    (create_little_items_rev l e).filterMap g =
      (l.filter (fun d => ¬ d.byte_order = "big_endian")).filterMap
        (fun d => g (Item.field d.length (get_format_string_type d) d.name)) := by
  induction l generalizing e with
  | nil =>
    rw [create_little_items_rev]
    by_cases hc : 0 < e
    · rw [if_pos hc]
      simp [List.filterMap_cons, hg]
    · rw [if_neg hc]
      rfl
  | cons d rest ih =>
    rw [create_little_items_rev]
    by_cases hd : d.byte_order = "big_endian"
    · rw [if_pos hd, List.filter_cons_of_neg (by simp [hd]), ih]
    · rw [if_neg hd, List.filter_cons_of_pos (by simp [hd]),
        List.filterMap_append, List.filterMap_cons]
      have hpadnil : List.filterMap g
          (if d.start + d.length < e then
            [Item.padding (e - (d.start + d.length))]
          else []) = [] := by
        by_cases hcc : d.start + d.length < e
        · rw [if_pos hcc]
          simp [List.filterMap_cons, hg]
        · rw [if_neg hcc]
          rfl
      rw [hpadnil, List.nil_append, List.filterMap_cons]
      cases hgf : g (Item.field d.length (get_format_string_type d) d.name) with
      | none => rw [ih]
      | some a => rw [ih]

theorem mapM_eq_some_map {α β : Type} (l : List α) (g : α → Option β)
    (v : α → β) (h : ∀ a ∈ l, g a = some (v a)) :
    l.mapM g = some (l.map v) := by
  induction l with
  | nil => rfl
  | cons a rest ih =>
    rw [List.mapM_cons, h a (List.mem_cons_self a rest),
      ih (fun x hx => h x (List.mem_cons_of_mem a hx))]
    rfl

theorem lookup_map_of_nodup {β : Type} (l : List Data) (v : Data → β)
    (hnd : (l.map Data.name).Nodup) (d : Data) (hd : d ∈ l) :
    List.lookup d.name (l.map (fun x => (x.name, v x))) = some (v d) := by
  induction l with
  | nil => simp at hd
  | cons x rest ih =>
    rw [List.map_cons]
    rw [List.map_cons, List.nodup_cons] at hnd
    rcases List.mem_cons.mp hd with rfl | hmem
    · simp [List.lookup]
    · have hne : ¬ d.name = x.name := by
        intro he
        exact hnd.1 (he ▸ List.mem_map_of_mem Data.name hmem)
      simp only [List.lookup]
      have hb : (d.name == x.name) = false := by simp [hne]
      rw [hb]
      exact ih hnd.2 hmem

theorem nodup_inj_name (l : List Data) (hnd : (l.map Data.name).Nodup)
    (d1 : Data) (h1 : d1 ∈ l) (d2 : Data) (h2 : d2 ∈ l)
    (he : d1.name = d2.name) : d1 = d2 :=
  List.inj_on_of_nodup_map hnd h1 h2 he

theorem packChunk_decode (len : Nat) (t : FmtType) (z : ℤ)
    (ht : t ≠ FmtType.f) (hlen : 1 ≤ len)
    (hr : if t = FmtType.s then
        -(2 ^ (len - 1)) ≤ z ∧ z < 2 ^ (len - 1)
      else 0 ≤ z ∧ z < 2 ^ len) :
    decodeChunk t len ((z % (2 ^ len : ℤ)).toNat) = z := by
  have hk : ((2 ^ (len - 1) : ℕ) : ℤ) = (2 : ℤ) ^ (len - 1) := by
    push_cast
    ring
  have hk2 : ((2 ^ len : ℕ) : ℤ) = (2 : ℤ) ^ len := by
    push_cast
    ring
  have hsplit : (2 : ℤ) ^ len = 2 ^ (len - 1) * 2 := by
    conv_lhs => rw [show len = (len - 1) + 1 by omega]
    rw [pow_succ]
  cases t with
  | f => exact absurd rfl ht
  | u =>
    rw [if_neg (by decide)] at hr
    rw [Int.emod_eq_of_lt hr.1 hr.2]
    simp only [decodeChunk]
    rw [Int.toNat_of_nonneg hr.1]
  | s =>
    simp only [if_pos rfl] at hr
    obtain ⟨hlo, hhi⟩ := hr
    by_cases hz : 0 ≤ z
    · have hzlt : z < 2 ^ len := by
        calc z < 2 ^ (len - 1) := hhi
          _ ≤ 2 ^ len := by
            apply pow_le_pow_right₀ (by norm_num)
            omega
      rw [Int.emod_eq_of_lt hz hzlt]
      simp only [decodeChunk]
      rw [if_pos (by omega), Int.toNat_of_nonneg hz]
    · push_neg at hz
      have hmod : z % (2 ^ len : ℤ) = z + 2 ^ len := by
        have h1 : z % (2 ^ len : ℤ) = (z + 2 ^ len * 1) % 2 ^ len :=
          (Int.add_mul_emod_self_left z (2 ^ len) 1).symm
        rw [mul_one] at h1
        rw [h1, Int.emod_eq_of_lt (by omega) (by omega)]
      rw [hmod]
      simp only [decodeChunk]
      rw [if_neg (by omega)]
      omega

theorem roundHalfEven_close (q : ℚ) : |(roundHalfEven q : ℚ) - q| ≤ 1 / 2 := by
  have h1 : (⌊q⌋ : ℚ) ≤ q := Int.floor_le q
  have h2 : q < ⌊q⌋ + 1 := Int.lt_floor_add_one q
  rw [roundHalfEven]
  by_cases hc1 : q - (⌊q⌋ : ℚ) < 1 / 2
  · rw [if_pos hc1, abs_le]
    constructor <;> linarith
  · rw [if_neg hc1]
    by_cases hc2 : (1 : ℚ) / 2 < q - (⌊q⌋ : ℚ)
    · rw [if_pos hc2]
      push_cast
      rw [abs_le]
      constructor <;> linarith
    · rw [if_neg hc2]
      by_cases hc3 : ⌊q⌋ % 2 = 0
      · rw [if_pos hc3, abs_le]
        constructor <;> linarith
      · rw [if_neg hc3]
        push_cast
        rw [abs_le]
        constructor <;> linarith

theorem scaled_decode_close (scale offset v : ℚ) (r : ℤ) (hs : scale ≠ 0)
    (hr : r = roundHalfEven ((v - offset) / scale)) :
    |scale * r + offset - v| ≤ |scale| / 2 := by
  have hkey : scale * (r : ℚ) + offset - v =
      scale * ((r : ℚ) - (v - offset) / scale) := by
    field_simp
    ring
  rw [hkey, abs_mul]
  have hclose := roundHalfEven_close ((v - offset) / scale)
  rw [hr]
  calc |scale| * |(((roundHalfEven ((v - offset) / scale) : ℤ) : ℚ)) -
      (v - offset) / scale| ≤ |scale| * (1 / 2) :=
        mul_le_mul_of_nonneg_left hclose (abs_nonneg scale)
    _ = |scale| / 2 := by ring

theorem validFrame_big_dataAt (datas : List Data) (nb : Nat)
    (hv : validFrame datas nb) (hb : bigChain (8 * nb) 0 datas = true)
    (i : Nat) (hi : i < 8 * nb) :
    dataAt (create_big_items (8 * nb) datas 0) i = true ↔
      ∃ d ∈ datas, d.byte_order = "big_endian" ∧
        start_bit d ≤ i ∧ i < start_bit d + d.length := by
  obtain ⟨hvf, _⟩ := hv
  have h := create_big_items_dataAt (8 * nb) datas i hi 0 hb (Nat.zero_le i)
  rw [Nat.sub_zero] at h
  rw [h]
  constructor
  · rintro ⟨d, hm, hnl, hx⟩
    rcases (hvf d hm).1 with hbo | hbo
    · exact ⟨d, hm, hbo, hx⟩
    · exact absurd hbo hnl
  · rintro ⟨d, hm, hbo, hx⟩
    refine ⟨d, hm, ?_, hx⟩
    rw [hbo]
    decide

theorem validFrame_little_dataAt (datas : List Data) (nb : Nat)
    (hv : validFrame datas nb)
    (hl : littleChainRev (8 * nb) datas.reverse = true)
    (p : Nat) (hp : p < 8 * nb) :
    dataAt (create_little_items datas (8 * nb)) p = true ↔
      ∃ d ∈ datas, d.byte_order = "little_endian" ∧
        8 * nb - (d.start + d.length) ≤ p ∧ p < 8 * nb - d.start := by
  obtain ⟨hvf, _⟩ := hv
  rw [create_little_items,
    create_little_items_rev_dataAt datas.reverse (8 * nb) p hl hp]
  constructor
  · rintro ⟨d, hm, hnb, hx⟩
    rcases (hvf d (List.mem_reverse.mp hm)).1 with hbo | hbo
    · exact absurd hbo hnb
    · exact ⟨d, List.mem_reverse.mp hm, hbo, hx⟩
  · rintro ⟨d, hm, hbo, hx⟩
    refine ⟨d, List.mem_reverse.mpr hm, ?_, hx⟩
    rw [hbo]
    decide

theorem validFrame_dataAt_disjoint (datas : List Data) (nb : Nat)
    (hv : validFrame datas nb) (hb : bigChain (8 * nb) 0 datas = true)
    (hl : littleChainRev (8 * nb) datas.reverse = true)
    (i : Nat) (hi : i < 8 * nb) :
    ¬(dataAt (create_big_items (8 * nb) datas 0) i = true ∧
      dataAt (create_little_items datas (8 * nb)) (revBit nb i) = true) := by
  obtain ⟨hvf, hvp⟩ := hv
  rintro ⟨h1, h2⟩
  obtain ⟨d1, hm1, hbo1, hx1a, hx1b⟩ :=
    (validFrame_big_dataAt datas nb ⟨hvf, hvp⟩ hb i hi).mp h1
  obtain ⟨d2, hm2, hbo2, hx2a, hx2b⟩ :=
    (validFrame_little_dataAt datas nb ⟨hvf, hvp⟩ hl (revBit nb i)
      (revBit_lt nb i hi)).mp h2
  have hne : d1 ≠ d2 := by
    intro he
    rw [he, hbo2] at hbo1
    exact absurd hbo1 (by decide)
  have hD := hvp.forall (fun _ _ h => h.symm) hm1 hm2 hne
  have hi1 : i ∈ fieldFrameBits nb d1 := by
    rw [fieldFrameBits, if_neg (by rw [hbo1]; decide), Finset.mem_Ico]
    exact ⟨hx1a, hx1b⟩
  have hi2 : i ∈ fieldFrameBits nb d2 := by
    have hw : d2.start + d2.length ≤ 8 * nb := by
      have := (hvf d2 hm2).2.2
      rw [if_pos hbo2] at this
      exact this
    rw [fieldFrameBits, if_pos hbo2, mem_image_revBit nb _ _ i (by omega) hi]
    exact ⟨hx2a, hx2b⟩
  exact Finset.disjoint_left.mp hD hi1 hi2

theorem filterMap_some_eq_map {α β : Type} (l : List α) (f : α → β) :
    l.filterMap (fun a => some (f a)) = l.map f := by
  induction l with
  | nil => rfl
  | cons a rest ih => simp [List.filterMap_cons, ih]

theorem unpackItems_foldBits_L (items : List Item) (f : Item → Nat) (L : Nat)
    (hL : itemsLength items = L) (hf : ∀ it ∈ items, f it < 2 ^ it.length) :
    unpackItems items (foldBits f items) L =
      items.filterMap (fun it => match it with
        | Item.padding _ => none
        | Item.field len t name =>
          some (name, decodeChunk t len (f (Item.field len t name)))) := by
  subst hL
  exact unpackItems_foldBits items f hf

theorem unpackItems_congr_L (items : List Item) (A B L : Nat)
    (hL : itemsLength items = L) (hA : A < 2 ^ L) (hB : B < 2 ^ L)
    (hbits : ∀ p, p < L → dataAt items p = true →
      A.testBit (L - 1 - p) = B.testBit (L - 1 - p)) :
    unpackItems items A L = unpackItems items B L := by
  subst hL
  exact unpackItems_congr items A B hA hB hbits

theorem unpackItems_pack_big (datas : List Data) (W : Nat)
    (vals : String → ℚ) (hb : bigChain W 0 datas = true) :
    unpackItems (create_big_items W datas 0)
      (packItems (create_big_items W datas 0) vals) W =
      (datas.filter (fun d => ¬ d.byte_order = "little_endian")).map
        (fun d => (d.name, decodeChunk (get_format_string_type d) d.length
          ((⌊vals d.name⌋ % (2 ^ d.length : ℤ)).toNat))) := by
  have hlen : itemsLength (create_big_items W datas 0) = W := by
    have := create_big_items_length W datas 0 hb
    omega
  rw [packItems,
    unpackItems_foldBits_L _ _ _ hlen (fun it _ => packChunk_lt vals it),
    create_big_items_filterMap W datas 0 _ (fun len => rfl)]
  refine Eq.trans ?_ (filterMap_some_eq_map _ _)
  rfl

theorem unpackItems_pack_little (datas : List Data) (W : Nat)
    (vals : String → ℚ) (hl : littleChainRev W datas.reverse = true) :
    unpackItems (create_little_items datas W)
      (packItems (create_little_items datas W) vals) W =
      ((datas.filter (fun d => ¬ d.byte_order = "big_endian")).reverse).map
        (fun d => (d.name, decodeChunk (get_format_string_type d) d.length
          ((⌊vals d.name⌋ % (2 ^ d.length : ℤ)).toNat))) := by
  have hlen : itemsLength (create_little_items datas W) = W :=
    create_little_items_rev_length datas.reverse W hl
  rw [packItems,
    unpackItems_foldBits_L _ _ _ hlen (fun it _ => packChunk_lt vals it),
    create_little_items,
    create_little_items_rev_filterMap datas.reverse W _ (fun len => rfl),
    List.filter_reverse]
  refine Eq.trans ?_ (filterMap_some_eq_map _ _)
  rfl

/-- The packed union of a full-width frame for a given value assignment:
the big program packing or-ed with the byte-reversed little program
packing; this is the integer encode_data computes. -/
def packedUnion (datas : List Data) (nb : Nat) (vals : String → ℚ) : Nat :=
  packItems (create_big_items (8 * nb) datas 0) vals |||
    byteRev nb (packItems (create_little_items datas (8 * nb)) vals)

theorem packedUnion_lt (datas : List Data) (nb : Nat) (vals : String → ℚ)
    (hb : bigChain (8 * nb) 0 datas = true) :
    packedUnion datas nb vals < 2 ^ (8 * nb) := by
  have hlen : itemsLength (create_big_items (8 * nb) datas 0) = 8 * nb := by
    have := create_big_items_length (8 * nb) datas 0 hb
    omega
  apply Nat.or_lt_two_pow
  · have := packItems_lt (create_big_items (8 * nb) datas 0) vals
    rw [hlen] at this
    exact this
  · exact byteRev_lt nb _

theorem packItems_testBit_eq_false (items : List Item) (vals : String → ℚ)
    (q L : Nat) (hL : itemsLength items = L) (hq : q < L)
    (hnd : dataAt items q = false) :
    (packItems items vals).testBit (L - 1 - q) = false := by
  subst hL
  rw [packItems,
    foldBits_testBit _ _ (fun it _ => packChunk_lt vals it) q hq,
    chunkBitAt_eq_false_of_not_data _ (fun l => rfl) items q hnd]

theorem unpack_big_packedUnion (datas : List Data) (nb : Nat)
    (vals : String → ℚ) (hv : validFrame datas nb)
    (hb : bigChain (8 * nb) 0 datas = true)
    (hl : littleChainRev (8 * nb) datas.reverse = true) :
    unpackItems (create_big_items (8 * nb) datas 0)
      (packedUnion datas nb vals) (8 * nb) =
    unpackItems (create_big_items (8 * nb) datas 0)
      (packItems (create_big_items (8 * nb) datas 0) vals) (8 * nb) := by
  have hbigLen : itemsLength (create_big_items (8 * nb) datas 0) = 8 * nb := by
    have := create_big_items_length (8 * nb) datas 0 hb
    omega
  have hlitLen : itemsLength (create_little_items datas (8 * nb)) = 8 * nb :=
    create_little_items_rev_length datas.reverse (8 * nb) hl
  apply unpackItems_congr_L _ _ _ _ hbigLen (packedUnion_lt datas nb vals hb)
    (by have := packItems_lt (create_big_items (8 * nb) datas 0) vals
        rw [hbigLen] at this
        exact this)
  intro p hp hdata
  rw [packedUnion, Nat.testBit_or, byteRev_testBit_frame nb _ p hp]
  have hnd : dataAt (create_little_items datas (8 * nb)) (revBit nb p) =
      false := by
    have h := validFrame_dataAt_disjoint datas nb hv hb hl p hp
    rcases Bool.eq_false_or_eq_true
      (dataAt (create_little_items datas (8 * nb)) (revBit nb p)) with h1 | h0
    · exact absurd ⟨hdata, h1⟩ h
    · exact h0
  rw [packItems_testBit_eq_false _ vals _ _ hlitLen (revBit_lt nb p hp) hnd,
    Bool.or_false]

theorem unpack_little_packedUnion (datas : List Data) (nb : Nat)
    (vals : String → ℚ) (hv : validFrame datas nb)
    (hb : bigChain (8 * nb) 0 datas = true)
    (hl : littleChainRev (8 * nb) datas.reverse = true) :
    unpackItems (create_little_items datas (8 * nb))
      (byteRev nb (packedUnion datas nb vals)) (8 * nb) =
    unpackItems (create_little_items datas (8 * nb))
      (packItems (create_little_items datas (8 * nb)) vals) (8 * nb) := by
  have hbigLen : itemsLength (create_big_items (8 * nb) datas 0) = 8 * nb := by
    have := create_big_items_length (8 * nb) datas 0 hb
    omega
  have hlitLen : itemsLength (create_little_items datas (8 * nb)) = 8 * nb :=
    create_little_items_rev_length datas.reverse (8 * nb) hl
  have hlitPackLt : packItems (create_little_items datas (8 * nb)) vals <
      2 ^ (8 * nb) := by
    have := packItems_lt (create_little_items datas (8 * nb)) vals
    rw [hlitLen] at this
    exact this
  have hrev : byteRev nb (packedUnion datas nb vals) =
      byteRev nb (packItems (create_big_items (8 * nb) datas 0) vals) |||
        packItems (create_little_items datas (8 * nb)) vals := by
    rw [packedUnion, byteRev_lor, byteRev_byteRev nb _ hlitPackLt]
  rw [hrev]
  apply unpackItems_congr_L _ _ _ _ hlitLen
    (Nat.or_lt_two_pow (byteRev_lt nb _) hlitPackLt)
    hlitPackLt
  intro q hq hdata
  rw [Nat.testBit_or, byteRev_testBit_frame nb _ q hq]
  have hnd : dataAt (create_big_items (8 * nb) datas 0) (revBit nb q) =
      false := by
    have h := validFrame_dataAt_disjoint datas nb hv hb hl (revBit nb q)
      (revBit_lt nb q hq)
    rcases Bool.eq_false_or_eq_true
      (dataAt (create_big_items (8 * nb) datas 0) (revBit nb q)) with h1 | h0
    · exfalso
      apply h
      refine ⟨h1, ?_⟩
      rw [revBit_invol nb q hq]
      exact hdata
    · exact h0
  rw [packItems_testBit_eq_false _ vals _ _ hbigLen (revBit_lt nb q hq) hnd,
    Bool.false_or]

theorem lookup_of_mem_of_nodup {β : Type} (cs : List (ℤ × β)) (k : ℤ) (w : β)
    (hnd : (cs.map Prod.fst).Nodup) (hm : (k, w) ∈ cs) :
    List.lookup k cs = some w := by
  induction cs with
  | nil => simp at hm
  | cons p rest ih =>
    obtain ⟨k', w'⟩ := p
    rw [List.map_cons, List.nodup_cons] at hnd
    rcases List.mem_cons.mp hm with he | hmem
    · rw [(Prod.mk.injEq _ _ _ _).mp he.symm |>.1]
      simp [List.lookup]
      exact ((Prod.mk.injEq _ _ _ _).mp he.symm).2
    · have hne : ¬ k = k' := by
        intro he
        have hx : k ∈ List.map Prod.fst rest :=
          List.mem_map_of_mem Prod.fst hmem
        rw [he] at hx
        exact hnd.1 hx
      simp only [List.lookup]
      have hb : (k == k') = false := by simp [hne]
      rw [hb]
      exact ih hnd.2 hmem

theorem get_format_string_type_of_not_float (d : Data)
    (h : d.is_float = false) :
    get_format_string_type d = (if d.is_signed then FmtType.s else FmtType.u) := by
  rw [get_format_string_type, h]
  simp

theorem two_pow_8n (n : Nat) : (256 : Nat) ^ n = 2 ^ (8 * n) := by
  rw [pow_mul]
  norm_num

theorem unpackBytes_big_of_union (datas : List Data) (nb : Nat)
    (vals : String → ℚ) (hv : validFrame datas nb)
    (hb : bigChain (8 * nb) 0 datas = true)
    (hl : littleChainRev (8 * nb) datas.reverse = true) :
    unpackBytes (create_big_items (8 * nb) datas 0)
      (natToBytes nb (packedUnion datas nb vals)) =
      (datas.filter (fun d => ¬ d.byte_order = "little_endian")).map
        (fun d => (d.name, decodeChunk (get_format_string_type d) d.length
          ((⌊vals d.name⌋ % (2 ^ d.length : ℤ)).toNat))) := by
  have hbigLen : itemsLength (create_big_items (8 * nb) datas 0) = 8 * nb := by
    have := create_big_items_length (8 * nb) datas 0 hb
    omega
  have hlt : packedUnion datas nb vals < 256 ^ nb := by
    rw [two_pow_8n]
    exact packedUnion_lt datas nb vals hb
  rw [unpackBytes, natToBytes_length, hbigLen,
    show 8 * nb - 8 * nb = 0 by omega, pow_zero, Nat.div_one,
    hexInt_natToBytes nb _ hlt,
    unpack_big_packedUnion datas nb vals hv hb hl,
    unpackItems_pack_big datas (8 * nb) vals hb]

theorem unpackBytes_little_of_union (datas : List Data) (nb : Nat)
    (vals : String → ℚ) (hv : validFrame datas nb)
    (hb : bigChain (8 * nb) 0 datas = true)
    (hl : littleChainRev (8 * nb) datas.reverse = true) :
    unpackBytes (create_little_items datas (8 * nb))
      (natToBytes nb (packedUnion datas nb vals)).reverse =
      ((datas.filter (fun d => ¬ d.byte_order = "big_endian")).reverse).map
        (fun d => (d.name, decodeChunk (get_format_string_type d) d.length
          ((⌊vals d.name⌋ % (2 ^ d.length : ℤ)).toNat))) := by
  have hlitLen : itemsLength (create_little_items datas (8 * nb)) = 8 * nb :=
    create_little_items_rev_length datas.reverse (8 * nb) hl
  have hlt : packedUnion datas nb vals < 256 ^ nb := by
    rw [two_pow_8n]
    exact packedUnion_lt datas nb vals hb
  rw [unpackBytes, List.length_reverse, natToBytes_length, hlitLen,
    show 8 * nb - 8 * nb = 0 by omega, pow_zero, Nat.div_one,
    hexInt_reverse_natToBytes nb _ hlt,
    unpack_little_packedUnion datas nb vals hv hb hl,
    unpackItems_pack_little datas (8 * nb) vals hl]

theorem decodeChunk_of_raw (d : Data) (z : ℤ) (hnf : d.is_float = false)
    (hlen : 1 ≤ d.length)
    (hr : if d.is_signed = true then
        -(2 ^ (d.length - 1)) ≤ z ∧ z < 2 ^ (d.length - 1)
      else 0 ≤ z ∧ z < 2 ^ d.length) :
    decodeChunk (get_format_string_type d) d.length
      ((z % (2 ^ d.length : ℤ)).toNat) = z := by
  rw [get_format_string_type_of_not_float d hnf]
  by_cases hs : d.is_signed = true
  · rw [if_pos hs] at hr
    rw [if_pos hs]
    apply packChunk_decode _ _ _ (by decide) hlen
    rw [if_pos rfl]
    exact hr
  · rw [if_neg hs] at hr
    rw [if_neg hs]
    apply packChunk_decode _ _ _ (by decide) hlen
    rw [if_neg (by decide)]
    exact hr

/-- C7: encode_data is the bitwise or of the big packing in natural byte
order with the little packing byte-reversed, both read as unsigned
integers; and decode_data unpacks the natural buffer with the big program
and the byte-reversed buffer with the little program and merges the two
results by union, which is well defined because the two programs bind
disjoint name sets. -/
theorem encode_decode_merge_spec (data : String → Value) (fields : List Data)
    (formats : Formats) (scaling decode_choices : Bool) (bs : List Nat)
    (hne : fields ≠ [])
    (hdisj : ∀ n ∈ itemNames formats.little_endian,
      n ∉ itemNames formats.big_endian) :
    encode_data data fields formats scaling =
      spec_encode_union data fields formats scaling ∧
    decode_data bs fields formats decode_choices scaling =
      spec_decode_union bs fields formats decode_choices scaling := by
  constructor
  · rw [encode_data, if_neg hne, spec_encode_union]
    cases h : encoded_values fields data scaling with
    | none => rfl
    | some unpacked =>
      simp only [Option.map_some']
      congr 1
      have hbig : hexInt (packBytes formats.big_endian (lookupQ unpacked)) =
          packItems formats.big_endian (lookupQ unpacked) *
            2 ^ (8 * ((itemsLength formats.big_endian + 7) / 8) -
              itemsLength formats.big_endian) := by
        rw [packBytes, hexInt_natToBytes _ _ (packAligned_lt _ _)]
      have hlit : hexInt
          ((packBytes formats.little_endian (lookupQ unpacked)).reverse) =
          byteRev ((itemsLength formats.little_endian + 7) / 8)
            (packItems formats.little_endian (lookupQ unpacked) *
              2 ^ (8 * ((itemsLength formats.little_endian + 7) / 8) -
                itemsLength formats.little_endian)) := by
        rw [packBytes, hexInt_reverse_natToBytes _ _ (packAligned_lt _ _)]
      rw [hbig, hlit]
  · rw [decode_data, spec_decode_union]
    have hfun : ∀ f : Data,
        (((unpackBytes formats.little_endian bs.reverse).lookup f.name).orElse
          (fun _ => (unpackBytes formats.big_endian bs).lookup f.name)) =
        ((unpackBytes formats.big_endian bs ++
          unpackBytes formats.little_endian bs.reverse).lookup f.name) := by
      intro f
      apply lookup_union_of_disjoint
      intro m hm
      rw [unpackBytes_keys] at hm ⊢
      exact hdisj m hm
    apply congrArg (fun g => List.mapM g fields)
    funext f
    rw [hfun f]

/-- C7 witness: encode_decode_merge_spec applied to a concrete two-field
frame, a concrete value assignment and a concrete two-byte buffer. -/
theorem encode_decode_merge_spec_witness :
    encode_data (fun _ => Value.num 1)
      [{ name := "a", start := 7, length := 8, byte_order := "big_endian" },
       { name := "b", start := 8, length := 8, byte_order := "little_endian" }]
      (create_encode_decode_formats
        [{ name := "a", start := 7, length := 8, byte_order := "big_endian" },
         { name := "b", start := 8, length := 8, byte_order := "little_endian" }]
        2) true =
      spec_encode_union (fun _ => Value.num 1)
        [{ name := "a", start := 7, length := 8, byte_order := "big_endian" },
         { name := "b", start := 8, length := 8, byte_order := "little_endian" }]
        (create_encode_decode_formats
          [{ name := "a", start := 7, length := 8, byte_order := "big_endian" },
           { name := "b", start := 8, length := 8, byte_order := "little_endian" }]
          2) true ∧
    decode_data [18, 52]
      [{ name := "a", start := 7, length := 8, byte_order := "big_endian" },
       { name := "b", start := 8, length := 8, byte_order := "little_endian" }]
      (create_encode_decode_formats
        [{ name := "a", start := 7, length := 8, byte_order := "big_endian" },
         { name := "b", start := 8, length := 8, byte_order := "little_endian" }]
        2) false true =
      spec_decode_union [18, 52]
        [{ name := "a", start := 7, length := 8, byte_order := "big_endian" },
         { name := "b", start := 8, length := 8, byte_order := "little_endian" }]
        (create_encode_decode_formats
          [{ name := "a", start := 7, length := 8, byte_order := "big_endian" },
           { name := "b", start := 8, length := 8, byte_order := "little_endian" }]
          2) false true :=
  encode_decode_merge_spec _ _ _ _ _ _ (List.cons_ne_nil _ _) (by decide)

/-- C6 counterexample: two in-range, pairwise disjoint big-endian fields
declared in decreasing position order form a valid frame in the sense of
the claim, yet the compiled programs do not partition the frame: the big
program misplaces the second field, leaving frame bits 0 to 7 covered by
nothing and bits 8 to 15 covered twice. -/
theorem layout_partition_counterexample :
    validFrame
      [{ name := "a", start := 15, length := 8, byte_order := "big_endian" },
       { name := "b", start := 7, length := 8, byte_order := "big_endian" }]
      2 ∧
    ¬ layoutPartition
      [{ name := "a", start := 15, length := 8, byte_order := "big_endian" },
       { name := "b", start := 7, length := 8, byte_order := "big_endian" }]
      2 := by
  constructor
  · constructor
    · decide
    · decide
  · unfold layoutPartition
    decide

/-- C6 amended: for every valid frame (descriptor-valid fields, bit ranges
within the frame, pairwise non-overlapping) whose declaration order is
consistent with the layout order of each program (the cursor disciplines
bigChain and littleChainRev, which hold for every loader-produced frame),
the big data bits and the byte-reversed little data bits are disjoint and,
together with the combined padding mask bits, cover every frame bit exactly
once. -/
theorem layout_partition_of_ordered (datas : List Data) (nb : Nat)
    (hv : validFrame datas nb)
    (hb : bigChain (8 * nb) 0 datas = true)
    (hl : littleChainRev (8 * nb) datas.reverse = true) :
    layoutPartition datas nb := by
  obtain ⟨hvf, hvp⟩ := hv
  have hbigLen : itemsLength (create_big_items (8 * nb) datas 0) = 8 * nb := by
    have h := create_big_items_length (8 * nb) datas 0 hb
    omega
  have hlitLen : itemsLength (create_little_items datas (8 * nb)) = 8 * nb :=
    create_little_items_rev_length datas.reverse (8 * nb) hl
  have hfmtb : (create_encode_decode_formats datas nb).big_endian =
      create_big_items (8 * nb) datas 0 := rfl
  have hfmtl : (create_encode_decode_formats datas nb).little_endian =
      create_little_items datas (8 * nb) := rfl
  have hfmtm : (create_encode_decode_formats datas nb).padding_mask =
      items_padding_mask (create_big_items (8 * nb) datas 0) &&&
        little_mask_post
          (items_padding_mask (create_little_items datas (8 * nb)))
          (itemsLength (create_little_items datas (8 * nb))) (8 * nb) := rfl
  have hmaskBit : ∀ i, i < 8 * nb →
      ((create_encode_decode_formats datas nb).padding_mask.testBit
          (8 * nb - 1 - i) =
        (!dataAt (create_big_items (8 * nb) datas 0) i &&
         !dataAt (create_little_items datas (8 * nb)) (revBit nb i))) := by
    intro i hi
    rw [hfmtm, Nat.testBit_land]
    have hbigbit : (items_padding_mask
        (create_big_items (8 * nb) datas 0)).testBit (8 * nb - 1 - i) =
        !dataAt (create_big_items (8 * nb) datas 0) i := by
      have h1 := foldBits_testBit maskChunk (create_big_items (8 * nb) datas 0)
        (fun it _ => maskChunk_lt it) i (by rw [hbigLen]; exact hi)
      rw [hbigLen] at h1
      rw [items_padding_mask, h1,
        chunkBitAt_maskChunk _ i (by rw [hbigLen]; exact hi)]
    have hlit0 : little_mask_post
        (items_padding_mask (create_little_items datas (8 * nb)))
        (itemsLength (create_little_items datas (8 * nb))) (8 * nb) =
        byteRev nb (items_padding_mask (create_little_items datas (8 * nb))) := by
      rw [hlitLen, little_mask_post, if_pos (by omega : 0 < 8 * nb)]
      have h8 : (8 * nb + 7) / 8 = nb := by omega
      rw [h8]
      have h0 : 8 * nb - 8 * nb = 0 := by omega
      rw [h0, pow_zero, mul_one]
    have hrB : revBit nb i < 8 * nb := revBit_lt nb i hi
    have hlitbit : (little_mask_post
        (items_padding_mask (create_little_items datas (8 * nb)))
        (itemsLength (create_little_items datas (8 * nb)))
        (8 * nb)).testBit (8 * nb - 1 - i) =
        !dataAt (create_little_items datas (8 * nb)) (revBit nb i) := by
      rw [hlit0, byteRev_testBit_frame nb _ i hi]
      have h1 := foldBits_testBit maskChunk (create_little_items datas (8 * nb))
        (fun it _ => maskChunk_lt it) (revBit nb i) (by rw [hlitLen]; exact hrB)
      rw [hlitLen] at h1
      rw [items_padding_mask, h1,
        chunkBitAt_maskChunk _ _ (by rw [hlitLen]; exact hrB)]
    rw [hbigbit, hlitbit]
  have hdisj : ∀ i, i < 8 * nb →
      ¬(dataAt (create_big_items (8 * nb) datas 0) i = true ∧
        dataAt (create_little_items datas (8 * nb)) (revBit nb i) = true) :=
    fun i hi => validFrame_dataAt_disjoint datas nb ⟨hvf, hvp⟩ hb hl i hi
  refine ⟨?_, ?_, ?_, ?_⟩
  · rw [Finset.disjoint_left]
    intro i hiB hiL
    simp only [bigDataBits, hfmtb, Finset.mem_filter, Finset.mem_range] at hiB
    simp only [littleDataBits, hfmtl, Finset.mem_filter,
      Finset.mem_range] at hiL
    exact hdisj i hiB.1 ⟨hiB.2, hiL.2⟩
  · rw [Finset.disjoint_left]
    intro i hiB hiM
    simp only [bigDataBits, hfmtb, Finset.mem_filter, Finset.mem_range] at hiB
    simp only [maskBits, Finset.mem_filter, Finset.mem_range] at hiM
    have hm := hmaskBit i hiB.1
    rw [hiM.2, hiB.2] at hm
    simp at hm
  · rw [Finset.disjoint_left]
    intro i hiL hiM
    simp only [littleDataBits, hfmtl, Finset.mem_filter,
      Finset.mem_range] at hiL
    simp only [maskBits, Finset.mem_filter, Finset.mem_range] at hiM
    have hm := hmaskBit i hiL.1
    rw [hiM.2, hiL.2] at hm
    simp at hm
  · apply Finset.ext
    intro i
    simp only [Finset.mem_union, bigDataBits, littleDataBits, maskBits,
      hfmtb, hfmtl, Finset.mem_filter, Finset.mem_range]
    constructor
    · rintro ((⟨h, _⟩ | ⟨h, _⟩) | ⟨h, _⟩) <;> exact h
    · intro hi
      by_cases h1 : dataAt (create_big_items (8 * nb) datas 0) i = true
      · exact Or.inl (Or.inl ⟨hi, h1⟩)
      by_cases h2 : dataAt (create_little_items datas (8 * nb))
          (revBit nb i) = true
      · exact Or.inl (Or.inr ⟨hi, h2⟩)
      · refine Or.inr ⟨hi, ?_⟩
        rw [hmaskBit i hi]
        simp only [Bool.not_eq_true] at h1 h2
        rw [h1, h2]
        rfl

/-- C6 witness: layout_partition_of_ordered applied to a concrete mixed
frame of two bytes with one big-endian and one little-endian field. -/
theorem layout_partition_of_ordered_witness :
    layoutPartition
      [{ name := "a", start := 7, length := 8, byte_order := "big_endian" },
       { name := "b", start := 8, length := 8, byte_order := "little_endian" }]
      2 :=
  layout_partition_of_ordered
    [{ name := "a", start := 7, length := 8, byte_order := "big_endian" },
     { name := "b", start := 8, length := 8, byte_order := "little_endian" }]
    2 ⟨by decide, by decide⟩ (by decide) (by decide)

/-- C8 counterexample: the encode path for integer-kind fields does not use
exact rational arithmetic. With scale 1 and offset 0 the value 10^28 + 1
(an exact Python integer) encodes to 10^28, because Decimal subtraction
rounds its 29-digit result to the default context precision of 28
significant digits, while exact rational arithmetic followed by
round-half-to-even returns 10^28 + 1 itself. -/
theorem encode_field_exact_rational_counterexample :
    _encode_field
      { name := "sig", start := 0, length := 104, byte_order := "big_endian",
        is_float := false, is_signed := false, scale := 1, offset := 0,
        choices := none }
      (fun _ => Value.num ((10 ^ 28 + 1 : ℤ) : ℚ)) true ≠
      some ((roundHalfEven ((((10 ^ 28 + 1 : ℤ) : ℚ) - 0) / 1) : ℤ) : ℚ) := by
  have h1 : decSub ((10 ^ 28 + 1 : ℤ) : ℚ) 0 = ((10 ^ 28 : ℤ) : ℚ) := by
    rw [decSub, sub_zero, decRound28_pow28_add_one]
  have h2 : decDiv ((10 ^ 28 : ℤ) : ℚ) 1 = ((10 ^ 28 : ℤ) : ℚ) := by
    rw [decDiv, div_one, decRound28_pow28]
  have h3 : decToIntegral ((10 ^ 28 : ℤ) : ℚ) = (10 ^ 28 : ℤ) :=
    roundHalfEven_intCast _
  have h4 : roundHalfEven ((((10 ^ 28 + 1 : ℤ) : ℚ) - 0) / 1) = (10 ^ 28 + 1 : ℤ) := by
    rw [sub_zero, div_one, roundHalfEven_intCast]
  simp only [_encode_field, h1, h2, h3, h4, if_true, Bool.false_eq_true,
    if_false]
  intro hcontra
  rw [Option.some_inj] at hcontra
  have : (10 ^ 28 : ℤ) = 10 ^ 28 + 1 := by exact_mod_cast hcontra
  omega

/-- C8 amended: for integer-kind fields the scaling encode path computes
(value - offset) / scale in decimal floating point with 28 significant
digits and half-even rounding (the default Python Decimal context), not in
exact rational arithmetic; whenever the decimal subtraction and division
happen to be exact, the result is the exact rational quotient rounded to
the nearest integer with round-half-to-even, and no binary floating point
is involved on this path. -/
theorem encode_field_decimal_rounding (field : Data) (data : String → Value)
    (v : ℚ) (hv : data field.name = Value.num v) (hf : field.is_float = false)
    (h1 : decRound28 (v - field.offset) = v - field.offset)
    (h2 : decRound28 ((v - field.offset) / field.scale) =
      (v - field.offset) / field.scale) :
    _encode_field field data true =
      some ((roundHalfEven ((v - field.offset) / field.scale) : ℤ) : ℚ) := by
  simp only [_encode_field, hv, hf, decSub, decDiv, decToIntegral, h1, h2,
    if_true, Bool.false_eq_true, if_false]

/-- C8 witness: encode_field_decimal_rounding applied to a concrete unsigned
field with scale 1 and offset 0 at the numeric value 6. -/
theorem encode_field_decimal_rounding_witness :
    _encode_field
      { name := "sig", start := 0, length := 8, byte_order := "big_endian",
        is_float := false, is_signed := false, scale := 1, offset := 0,
        choices := none }
      (fun _ => Value.num 6) true = some 6 := by
  have h6 : ((6 : ℚ) - 0) / 1 = ((6 : ℤ) : ℚ) := by norm_num
  have hres := encode_field_decimal_rounding
    { name := "sig", start := 0, length := 8, byte_order := "big_endian",
      is_float := false, is_signed := false, scale := 1, offset := 0,
      choices := none }
    (fun _ => Value.num 6) 6 rfl rfl
    (by have hc := decRound28_intCast 6 (by norm_num) (by norm_num)
        push_cast at hc
        simpa using hc)
    (by have hc := decRound28_intCast 6 (by norm_num) (by norm_num)
        push_cast at hc
        simpa using hc)
  rw [hres, h6, roundHalfEven_intCast]
  norm_num

/-- C10: decoding with choice decoding enabled never fails when the raw
value has no matching key in the choices mapping or the mapping is absent:
it falls back to the scaled value when scaling is requested and to the raw
value otherwise. -/
theorem decode_field_choice_fallback (field : Data) (value : ℤ)
    (scaling : Bool)
    (h : field.choices = none ∨
      ∃ cs, field.choices = some cs ∧ cs.lookup value = none) :
    _decode_field field value true scaling =
      (if scaling then Value.num (field.scale * value + field.offset)
       else Value.num (value : ℚ)) := by
  rcases h with h | ⟨cs, hcs, hlk⟩ <;> simp [_decode_field, *]

/-- C10 witness: decode_field_choice_fallback applied to a concrete field
with scale 2, offset 1, a choices mapping without the key 3, at raw value 3
with scaling on. -/
theorem decode_field_choice_fallback_witness :
    _decode_field
      { name := "sig", start := 0, length := 8, byte_order := "big_endian",
        is_float := false, is_signed := false, scale := 2, offset := 1,
        choices := some [(0, "Off"), (1, "On")] }
      3 true true = Value.num 7 := by
  have hres := decode_field_choice_fallback
    { name := "sig", start := 0, length := 8, byte_order := "big_endian",
      is_float := false, is_signed := false, scale := 2, offset := 1,
      choices := some [(0, "Off"), (1, "On")] }
    3 true (Or.inr ⟨[(0, "Off"), (1, "On")], rfl, by decide⟩)
  rw [hres]
  norm_num

/-- C9: for every well-formed frame (valid descriptors, in-range pairwise
disjoint bit ranges, declaration order consistent with layout order as the
loader always produces, distinct names, no float kinds) and every
admissible value assignment (each field encodes to an in-range integer raw
value), decoding the encoding with scaling enabled both ways recovers every
raw value exactly; a numeric-valued field whose decimal scaling steps are
exact decodes, with choice decoding disabled, to a value within half the
scale of the original; and a symbolically encoded field decodes, with
choice decoding enabled, to exactly the original symbolic name. -/
theorem encode_decode_roundtrip (datas : List Data) (nb : Nat)
    (data : String → Value) (raw : Data → ℤ)
    (hv : validFrame datas nb)
    (hb : bigChain (8 * nb) 0 datas = true)
    (hl : littleChainRev (8 * nb) datas.reverse = true)
    (hnames : (datas.map Data.name).Nodup)
    (hnf : ∀ d ∈ datas, d.is_float = false)
    (hne : datas ≠ [])
    (henc : ∀ d ∈ datas, _encode_field d data true = some ((raw d : ℤ) : ℚ))
    (hrange : ∀ d ∈ datas,
      if d.is_signed = true then
        -(2 ^ (d.length - 1)) ≤ raw d ∧ raw d < 2 ^ (d.length - 1)
      else 0 ≤ raw d ∧ raw d < 2 ^ d.length) :
    ∀ decode_choices : Bool,
    ∃ enc : Nat,
      encode_data data datas (create_encode_decode_formats datas nb) true =
        some enc ∧
      ∃ out : List (String × Value),
        decode_data (natToBytes nb enc) datas
          (create_encode_decode_formats datas nb) decode_choices true =
          some out ∧
        ∀ d ∈ datas,
          List.lookup d.name out =
            some (_decode_field d (raw d) decode_choices true) ∧
          (∀ v : ℚ, data d.name = Value.num v → d.scale ≠ 0 →
            decRound28 (v - d.offset) = v - d.offset →
            decRound28 ((v - d.offset) / d.scale) = (v - d.offset) / d.scale →
            decode_choices = false →
            List.lookup d.name out =
              some (Value.num (d.scale * (raw d : ℚ) + d.offset)) ∧
            |d.scale * (raw d : ℚ) + d.offset - v| ≤ |d.scale| / 2) ∧
          (∀ s : String, data d.name = Value.sym s → decode_choices = true →
            (∀ cs, d.choices = some cs → (cs.map Prod.fst).Nodup) →
            List.lookup d.name out = some (Value.sym s)) := by
  obtain ⟨hvf, hvp⟩ := hv
  intro decode_choices
  have hbigLen : itemsLength (create_big_items (8 * nb) datas 0) = 8 * nb := by
    have := create_big_items_length (8 * nb) datas 0 hb
    omega
  have hlitLen : itemsLength (create_little_items datas (8 * nb)) = 8 * nb :=
    create_little_items_rev_length datas.reverse (8 * nb) hl
  have hW8 : (8 * nb + 7) / 8 = nb := by omega
  set vals : String → ℚ :=
    lookupQ (datas.map (fun f => (f.name, ((raw f : ℤ) : ℚ)))) with hvalsdef
  have hvals_at : ∀ d ∈ datas, vals d.name = ((raw d : ℤ) : ℚ) := by
    intro d hd
    rw [hvalsdef, lookupQ,
      lookup_map_of_nodup datas (fun f => ((raw f : ℤ) : ℚ)) hnames d hd]
  have hvals : encoded_values datas data true =
      some (datas.map (fun f => (f.name, ((raw f : ℤ) : ℚ)))) := by
    apply mapM_eq_some_map
    intro d hd
    rw [henc d hd]
    rfl
  have hfb : (create_encode_decode_formats datas nb).big_endian =
      create_big_items (8 * nb) datas 0 := rfl
  have hfl : (create_encode_decode_formats datas nb).little_endian =
      create_little_items datas (8 * nb) := rfl
  have hbigPackLt : packItems (create_big_items (8 * nb) datas 0) vals <
      256 ^ nb := by
    rw [two_pow_8n]
    have := packItems_lt (create_big_items (8 * nb) datas 0) vals
    rw [hbigLen] at this
    exact this
  have hlitPackLt : packItems (create_little_items datas (8 * nb)) vals <
      256 ^ nb := by
    rw [two_pow_8n]
    have := packItems_lt (create_little_items datas (8 * nb)) vals
    rw [hlitLen] at this
    exact this
  have hencEq : encode_data data datas
      (create_encode_decode_formats datas nb) true =
      some (packedUnion datas nb vals) := by
    rw [encode_data, if_neg hne, hvals]
    simp only [Option.map_some']
    congr 1
    rw [← hvalsdef, hfb, hfl, packBytes, packBytes, hbigLen, hlitLen, hW8,
      show 8 * nb - 8 * nb = 0 by omega, pow_zero, mul_one, mul_one,
      hexInt_natToBytes nb _ hbigPackLt,
      hexInt_reverse_natToBytes nb _ hlitPackLt]
    rfl
  have hunpB : unpackBytes (create_big_items (8 * nb) datas 0)
      (natToBytes nb (packedUnion datas nb vals)) =
      (datas.filter (fun d => ¬ d.byte_order = "little_endian")).map
        (fun d => (d.name, raw d)) := by
    rw [unpackBytes_big_of_union datas nb vals ⟨hvf, hvp⟩ hb hl]
    apply List.map_congr_left
    intro d hd
    have hdm : d ∈ datas := List.mem_of_mem_filter hd
    rw [hvals_at d hdm, Int.floor_intCast]
    rw [decodeChunk_of_raw d (raw d) (hnf d hdm) ((hvf d hdm).2.1)
      (hrange d hdm)]
  have hunpL : unpackBytes (create_little_items datas (8 * nb))
      (natToBytes nb (packedUnion datas nb vals)).reverse =
      ((datas.filter (fun d => ¬ d.byte_order = "big_endian")).reverse).map
        (fun d => (d.name, raw d)) := by
    rw [unpackBytes_little_of_union datas nb vals ⟨hvf, hvp⟩ hb hl]
    apply List.map_congr_left
    intro d hd
    have hdm : d ∈ datas :=
      List.mem_of_mem_filter (List.mem_reverse.mp hd)
    rw [hvals_at d hdm, Int.floor_intCast]
    rw [decodeChunk_of_raw d (raw d) (hnf d hdm) ((hvf d hdm).2.1)
      (hrange d hdm)]
  have hlook : ∀ d ∈ datas,
      (List.lookup d.name (unpackBytes
          (create_encode_decode_formats datas nb).little_endian
          (natToBytes nb (packedUnion datas nb vals)).reverse)).orElse
        (fun _ => List.lookup d.name (unpackBytes
          (create_encode_decode_formats datas nb).big_endian
          (natToBytes nb (packedUnion datas nb vals)))) =
        some (raw d) := by
    intro d hd
    rw [hfb, hfl, hunpB, hunpL]
    rcases (hvf d hd).1 with hbo | hbo
    · have hnone : List.lookup d.name
          (((datas.filter (fun d => ¬ d.byte_order = "big_endian")).reverse).map
            (fun d => (d.name, raw d))) = none := by
        apply lookup_eq_none_of_not_mem
        intro hmem
        rw [List.map_map] at hmem
        obtain ⟨d2, hd2, hname⟩ := List.mem_map.mp hmem
        have hd2m : d2 ∈ datas :=
          List.mem_of_mem_filter (List.mem_reverse.mp hd2)
        have hd2nb : ¬ d2.byte_order = "big_endian" := by
          have := List.of_mem_filter (List.mem_reverse.mp hd2)
          simpa using this
        have : d2 = d := nodup_inj_name datas hnames d2 hd2m d hd hname
        rw [this, hbo] at hd2nb
        exact hd2nb rfl
      rw [hnone]
      have hsome : List.lookup d.name
          ((datas.filter (fun d => ¬ d.byte_order = "little_endian")).map
            (fun d => (d.name, raw d))) = some (raw d) := by
        have hnd : (((datas.filter
            (fun d => ¬ d.byte_order = "little_endian")).map Data.name)).Nodup :=
          List.Nodup.sublist ((List.filter_sublist datas).map Data.name) hnames
        exact lookup_map_of_nodup _ raw hnd d
          (List.mem_filter.mpr ⟨hd, by simp [hbo]⟩)
      rw [hsome]
      simp [Option.orElse]
    · have hsome : List.lookup d.name
          (((datas.filter (fun d => ¬ d.byte_order = "big_endian")).reverse).map
            (fun d => (d.name, raw d))) = some (raw d) := by
        have hnd : ((((datas.filter
            (fun d => ¬ d.byte_order = "big_endian")).reverse).map
              Data.name)).Nodup := by
          rw [List.map_reverse, List.nodup_reverse]
          exact List.Nodup.sublist ((List.filter_sublist datas).map Data.name)
            hnames
        exact lookup_map_of_nodup _ raw hnd d
          (List.mem_reverse.mpr (List.mem_filter.mpr ⟨hd, by simp [hbo]⟩))
      rw [hsome]
      simp [Option.orElse]
  have hdec : decode_data (natToBytes nb (packedUnion datas nb vals)) datas
      (create_encode_decode_formats datas nb) decode_choices true =
      some (datas.map
        (fun d => (d.name, _decode_field d (raw d) decode_choices true))) := by
    rw [decode_data]
    apply mapM_eq_some_map
    intro d hd
    rw [hlook d hd]
    rfl
  refine ⟨packedUnion datas nb vals, hencEq,
    datas.map (fun d => (d.name, _decode_field d (raw d) decode_choices true)),
    hdec, ?_⟩
  intro d hd
  have hfirst := lookup_map_of_nodup datas
    (fun d => _decode_field d (raw d) decode_choices true) hnames d hd
  refine ⟨hfirst, ?_, ?_⟩
  · intro v hvnum hs hex1 hex2 hdc
    subst hdc
    have hfall : _decode_field d (raw d) false true =
        Value.num (d.scale * (raw d : ℚ) + d.offset) := rfl
    constructor
    · rw [hfirst]
      exact congrArg some hfall
    · have he := henc d hd
      simp only [_encode_field, hvnum, hnf d hd, Bool.false_eq_true,
        if_false, if_true, decSub, decDiv, decToIntegral, hex1, hex2] at he
      have hrawz : raw d = roundHalfEven ((v - d.offset) / d.scale) := by
        have := Option.some_inj.mp he
        exact_mod_cast this.symm
      exact scaled_decode_close d.scale d.offset v (raw d) hs hrawz
  · intro s hsym hdc hchnd
    subst hdc
    rw [hfirst]
    congr 1
    have he := henc d hd
    simp only [_encode_field, hsym] at he
    obtain ⟨z, hz1, hz2⟩ := Option.map_eq_some'.mp he
    have hzraw : z = raw d := by exact_mod_cast hz2
    cases hcs : d.choices with
    | none =>
      rw [hcs] at hz1
      simp [choice_string_to_number] at hz1
    | some cs =>
      rw [hcs] at hz1
      simp only [choice_string_to_number] at hz1
      obtain ⟨p, hp1, hp2⟩ := Option.map_eq_some'.mp hz1
      have hps : p.2 = s := by
        have := List.find?_some hp1
        simpa using this
      have hpmem : p ∈ cs := List.mem_of_find?_eq_some hp1
      have hpz : p = (z, s) := Prod.ext hp2 hps
      have hlkp : List.lookup z cs = some s :=
        lookup_of_mem_of_nodup cs z s (hchnd cs hcs) (hpz ▸ hpmem)
      simp only [_decode_field, hcs, if_true]
      rw [← hzraw, hlkp]

theorem encode_field_int_simple (d : Data) (data : String → Value) (z : ℤ)
    (hnum : data d.name = Value.num ((z : ℤ) : ℚ)) (hf : d.is_float = false)
    (hscale : d.scale = 1) (hoff : d.offset = 0)
    (hz : 0 < z) (hz2 : z < 10 ^ 28) :
    _encode_field d data true = some ((z : ℤ) : ℚ) := by
  have h1 : decSub ((z : ℤ) : ℚ) d.offset = ((z : ℤ) : ℚ) := by
    rw [hoff, decSub, sub_zero, decRound28_intCast z hz hz2]
  have h2 : decDiv ((z : ℤ) : ℚ) d.scale = ((z : ℤ) : ℚ) := by
    rw [hscale, decDiv, div_one, decRound28_intCast z hz hz2]
  simp only [_encode_field, hnum, hf, Bool.false_eq_true, if_false, if_true,
    h1, h2, decToIntegral, roundHalfEven_intCast]

/-- C9 witness: encode_decode_roundtrip applied to a concrete two-byte
frame with one big-endian and one little-endian unsigned byte field,
holding the values 5 and 7. -/
theorem encode_decode_roundtrip_witness :
    ∃ enc : Nat, ∃ out : List (String × Value),
      encode_data
        (fun n => if n = "a" then Value.num ((5 : ℤ) : ℚ)
          else Value.num ((7 : ℤ) : ℚ))
        [{ name := "a", start := 7, length := 8, byte_order := "big_endian" },
         { name := "b", start := 8, length := 8, byte_order := "little_endian" }]
        (create_encode_decode_formats
          [{ name := "a", start := 7, length := 8, byte_order := "big_endian" },
           { name := "b", start := 8, length := 8, byte_order := "little_endian" }]
          2) true = some enc ∧
      decode_data (natToBytes 2 enc)
        [{ name := "a", start := 7, length := 8, byte_order := "big_endian" },
         { name := "b", start := 8, length := 8, byte_order := "little_endian" }]
        (create_encode_decode_formats
          [{ name := "a", start := 7, length := 8, byte_order := "big_endian" },
           { name := "b", start := 8, length := 8, byte_order := "little_endian" }]
          2) false true = some out ∧
      List.lookup "a" out = some (Value.num 5) ∧
      List.lookup "b" out = some (Value.num 7) := by
  have happ := encode_decode_roundtrip
    [{ name := "a", start := 7, length := 8, byte_order := "big_endian" },
     { name := "b", start := 8, length := 8, byte_order := "little_endian" }]
    2
    (fun n => if n = "a" then Value.num ((5 : ℤ) : ℚ)
      else Value.num ((7 : ℤ) : ℚ))
    (fun d => if d.name = "a" then (5 : ℤ) else 7)
    ⟨by decide, by decide⟩ (by decide) (by decide) (by decide) (by decide)
    (List.cons_ne_nil _ _)
    (by
      intro d hd
      rcases List.mem_cons.mp hd with rfl | hd2
      · refine Eq.trans (encode_field_int_simple _ _ 5 (by simp) rfl rfl rfl
          (by norm_num) (by norm_num)) ?_
        simp
      · rcases List.mem_cons.mp hd2 with rfl | hd3
        · refine Eq.trans (encode_field_int_simple _ _ 7 (by simp) rfl rfl rfl
            (by norm_num) (by norm_num)) ?_
          simp
        · simp at hd3)
    (by decide)
    false
  obtain ⟨enc, hence, out, hdec, hall⟩ := happ
  refine ⟨enc, out, hence, hdec, ?_, ?_⟩
  · have h := ((hall { name := "a", start := 7, length := 8, byte_order := "big_endian" } (by simp)).2.1) ((5 : ℤ) : ℚ)
      (by simp)
      (by norm_num)
      (by
        show decRound28 (((5 : ℤ) : ℚ) - 0) = ((5 : ℤ) : ℚ) - 0
        rw [sub_zero, decRound28_intCast 5 (by norm_num) (by norm_num)])
      (by
        show decRound28 ((((5 : ℤ) : ℚ) - 0) / 1) = (((5 : ℤ) : ℚ) - 0) / 1
        rw [sub_zero, div_one, decRound28_intCast 5 (by norm_num) (by norm_num)])
      rfl
    have h1 := h.1
    simp at h1
    convert h1 using 2
  · have h := ((hall { name := "b", start := 8, length := 8, byte_order := "little_endian" } (by simp)).2.1) ((7 : ℤ) : ℚ)
      (by simp)
      (by norm_num)
      (by
        show decRound28 (((7 : ℤ) : ℚ) - 0) = ((7 : ℤ) : ℚ) - 0
        rw [sub_zero, decRound28_intCast 7 (by norm_num) (by norm_num)])
      (by
        show decRound28 ((((7 : ℤ) : ℚ) - 0) / 1) = (((7 : ℤ) : ℚ) - 0) / 1
        rw [sub_zero, div_one, decRound28_intCast 7 (by norm_num) (by norm_num)])
      rfl
    have h1 := h.1
    simp at h1
    convert h1 using 2

end Cantools
